import Mathlib

/-!
Verification of the image-analysis pipeline of the mnist-app repository.

The definitions below are shallow embeddings of the JavaScript functions in
src/script.js and src/unnamed/part_000.  Machine bytes are modelled as Nat,
JavaScript float arithmetic on pixel statistics as exact rationals, and
Uint8Array reads as List.getD with default 0 (a store of undefined into a
Uint8Array yields 0, and all in-range reads agree with getD).
-/

namespace MnistApp

section Pipeline

attribute [local semireducible] Rat.mul Rat.add Rat.inv Rat.sub

/-- Grayscale raster image: row-major byte buffer plus width and height. -/
structure GrayImage where
  data : List Nat
  width : Nat
  height : Nat
deriving DecidableEq

/-- Pixel read at column x, row y (row-major index y*width+x). -/
def px (img : GrayImage) (x y : Nat) : Nat := img.data.getD (y * img.width + x) 0

/-- Build a w-by-h image from a per-pixel function; index i holds f (i mod w) (i div w),
mirroring the JavaScript double loop with y outer and x inner. -/
def buildImage (w h : Nat) (f : Nat → Nat → Nat) : GrayImage :=
  ⟨(List.range (h * w)).map (fun i => f (i % w) (i / w)), w, h⟩

/-! ### Denoiser (script.js 718-754, simpleGaussianBlur) -/

/-- One output pixel of the 3x3 near-binomial blur.  Border pixels are copied
unchanged; interior pixels get round(sum/16), where Math.round on a nonneg
value is floor(sum/16 + 1/2) = (sum+8)/16 in Nat division. -/
def blurPixel (img : GrayImage) (x y : Nat) : Nat :=
  if x = 0 ∨ y = 0 ∨ x = img.width - 1 ∨ y = img.height - 1 then px img x y
  else
    (px img (x-1) (y-1) * 1 + px img x (y-1) * 2 + px img (x+1) (y-1) * 1 +
     px img (x-1) y * 2 + px img x y * 4 + px img (x+1) y * 2 +
     px img (x-1) (y+1) * 1 + px img x (y+1) * 2 + px img (x+1) (y+1) * 1 + 8) / 16

/-- Embedded from src/script.js lines 718-754. -/
def simpleGaussianBlur (img : GrayImage) : GrayImage :=
  buildImage img.width img.height (blurPixel img)

/-! ### Binarizer (script.js 757-813, calculateOtsuThreshold and binarizeImage) -/

/-- Gray-value histogram, script.js 761-764: the count of pixels of value i. -/
def histogram (data : List Nat) (i : Nat) : Nat := data.count i

/-- Total intensity sum computed from the histogram, script.js 768-771. -/
def otsuSum (data : List Nat) : Nat :=
  (List.range 256).foldl (fun acc i => acc + i * histogram data i) 0

/-- Loop state of the Otsu threshold scan. -/
structure OtsuState where
  sumB : Nat
  wB : Nat
  maxVariance : ℚ
  threshold : Nat
  broken : Bool
deriving DecidableEq

/-- Between-class variance wB*wF*(mB-mF)^2 at the given accumulators. -/
def otsuVariance (total sum wB sumB : Nat) : ℚ :=
  (wB : ℚ) * ((total - wB : Nat) : ℚ) *
    ((sumB : ℚ) / (wB : ℚ) - ((sum : ℚ) - (sumB : ℚ)) / (((total - wB : Nat)) : ℚ)) ^ 2

/-- One iteration of the Otsu scan, script.js 779-798.  The broken flag models
the break statement; the continue when wB is zero keeps sumB untouched; the
strict comparison keeps the first threshold on variance ties. -/
def otsuStep (data : List Nat) (total sum : Nat) (s : OtsuState) (i : Nat) : OtsuState :=
  if s.broken = true then s
  else if s.wB + histogram data i = 0 then ⟨s.sumB, s.wB + histogram data i,
    s.maxVariance, s.threshold, s.broken⟩
  else if total - (s.wB + histogram data i) = 0 then ⟨s.sumB, s.wB + histogram data i,
    s.maxVariance, s.threshold, true⟩
  else if s.maxVariance <
      otsuVariance total sum (s.wB + histogram data i) (s.sumB + i * histogram data i) then
    ⟨s.sumB + i * histogram data i, s.wB + histogram data i,
      otsuVariance total sum (s.wB + histogram data i) (s.sumB + i * histogram data i), i, false⟩
  else
    ⟨s.sumB + i * histogram data i, s.wB + histogram data i, s.maxVariance, s.threshold, false⟩

/-- Embedded from src/script.js lines 757-801. -/
def calculateOtsuThreshold (img : GrayImage) : Nat :=
  ((List.range 256).foldl (otsuStep img.data img.data.length (otsuSum img.data))
    ⟨0, 0, 0, 0, false⟩).threshold

/-- Embedded from src/script.js lines 804-813: v > threshold becomes 255, else 0. -/
def binarizeImage (img : GrayImage) (threshold : Nat) : GrayImage :=
  ⟨img.data.map (fun v => if threshold < v then 255 else 0), img.width, img.height⟩

/-! ### Dilation (script.js 892-921, dilateBinary) -/

/-- Window offsets (dx, dy) of the max filter: dy outer, dx inner, each from
-half to half, as in the nested ky/kx loops. -/
def winOffsets (half : Nat) : List (Int × Int) :=
  (List.range (2 * half + 1)).flatMap
    (fun (a : Nat) => (List.range (2 * half + 1)).map
      (fun (b : Nat) => ((b : Int) - (half : Int), (a : Int) - (half : Int))))

/-- One bounds-checked max-accumulation step of the dilation window scan. -/
def dilateStep (img : GrayImage) (x y : Nat) (m : Nat) (d : Int × Int) : Nat :=
  if 0 ≤ (x : Int) + d.1 ∧ (x : Int) + d.1 < (img.width : Int) ∧
      0 ≤ (y : Int) + d.2 ∧ (y : Int) + d.2 < (img.height : Int) then
    max m (px img ((x : Int) + d.1).toNat ((y : Int) + d.2).toNat)
  else m

/-- One output pixel of the dilation: the max over the window, starting from 0. -/
def dilatePixel (img : GrayImage) (half : Nat) (x y : Nat) : Nat :=
  (winOffsets half).foldl (dilateStep img x y) 0

/-- Embedded from src/script.js lines 892-921; half = floor(kernelSize/2). -/
def dilateBinary (img : GrayImage) (kernelSize : Nat) : GrayImage :=
  buildImage img.width img.height (dilatePixel img (kernelSize / 2))

/-! ### advancedPreprocess steps 1-2 (script.js 948-978) -/

/-- Step 1 of advancedPreprocess, script.js 948-951: re-binarize the ROI at 128. -/
def advBinary (roi : GrayImage) : GrayImage :=
  ⟨roi.data.map (fun v => if 128 < v then 255 else 0), roi.width, roi.height⟩

/-- Step 2 of advancedPreprocess, script.js 954-978: the inline dilation loop,
identical to dilateBinary with kernelSize 2 (half = 1, a 3x3 max window). -/
def advDilated (roi : GrayImage) : GrayImage := dilateBinary (advBinary roi) 2

/-! ### C2: Otsu on the synthetic bimodal histogram -/

/-- The synthetic bimodal image of the spec: 500 pixels of value 50 and 500 of
value 200. -/
def bimodalImage : GrayImage :=
  ⟨List.replicate 500 50 ++ List.replicate 500 200, 1000, 1⟩

/-! ### Brightness, inversion, and the camera-path filters -/

/-- Embedded from src/script.js lines 700-706: mean gray value, exact rational. -/
def calculateAverageBrightness (img : GrayImage) : ℚ :=
  ((img.data.foldl (fun a v => a + v) 0 : Nat) : ℚ) / (img.data.length : ℚ)

/-- Embedded from src/script.js lines 709-715.  Gray values are bytes, so the
Nat subtraction agrees with the JavaScript arithmetic. -/
def invertBackground (img : GrayImage) : GrayImage :=
  ⟨img.data.map (fun v => 255 - v), img.width, img.height⟩

/-- Bounds-checked window values around a pixel, in the ky-outer kx-inner scan
order shared by medianBlur (script.js 1076-1087) and adaptiveThreshold
(script.js 1110-1122). -/
def windowValues (img : GrayImage) (radius : Nat) (x y : Nat) : List Nat :=
  (winOffsets radius).filterMap
    (fun d =>
      if 0 ≤ (x : Int) + d.1 ∧ (x : Int) + d.1 < (img.width : Int) ∧
          0 ≤ (y : Int) + d.2 ∧ (y : Int) + d.2 < (img.height : Int) then
        some (px img ((x : Int) + d.1).toNat ((y : Int) + d.2).toNat)
      else none)

/-- Embedded from src/script.js lines 1067-1097: median of the bounds-checked
window, values sorted ascending, middle index floor(length/2). -/
def medianBlurPixel (img : GrayImage) (radius : Nat) (x y : Nat) : Nat :=
  (List.insertionSort (fun a b => a ≤ b) (windowValues img radius x y)).getD
    ((windowValues img radius x y).length / 2) 0

/-- Embedded from src/script.js lines 1067-1097; radius = floor(kernelSize/2). -/
def medianBlur (img : GrayImage) (kernelSize : Nat) : GrayImage :=
  buildImage img.width img.height (medianBlurPixel img (kernelSize / 2))

/-- Embedded from src/script.js lines 1100-1133: local-mean threshold with
offset C, inverted binarization (THRESH_BINARY_INV). -/
def adaptiveThresholdPixel (img : GrayImage) (radius : Nat) (C : Nat) (x y : Nat) : Nat :=
  if (((windowValues img radius x y).foldl (fun a v => a + v) 0 : Nat) : ℚ) /
        ((windowValues img radius x y).length : ℚ) - (C : ℚ) <
      ((px img x y : Nat) : ℚ) then 0 else 255

/-- Embedded from src/script.js lines 1100-1133; radius = floor(blockSize/2). -/
def adaptiveThreshold (img : GrayImage) (blockSize : Nat) (C : Nat) : GrayImage :=
  buildImage img.width img.height (adaptiveThresholdPixel img (blockSize / 2) C)

/-! ### The two binary-mask pipelines and the all-black input (C7) -/

/-- Handwriting-path mask, script.js 1352-1368: optional background inversion,
Gaussian blur, Otsu threshold, binarize. -/
def handwritingMask (g : GrayImage) : GrayImage :=
  let pg := if 120 < calculateAverageBrightness g then invertBackground g else g
  let bl := simpleGaussianBlur pg
  binarizeImage bl (calculateOtsuThreshold bl)

/-- Realtime camera-path mask, script.js 1238-1248: median blur, adaptive
threshold (block 31, C 12), dilation with the 2-kernel. -/
def realtimeMask (g : GrayImage) : GrayImage :=
  dilateBinary (adaptiveThreshold (medianBlur g 5) 31 12) 2

/-- All-black image of the given size. -/
def allBlack (w h : Nat) : GrayImage := ⟨List.replicate (w * h) 0, w, h⟩

/-! ### Denoiser plus Binarizer pair (C8) -/

/-- One round of Denoiser plus Binarizer: blur then Otsu then binarize. -/
def denoiseBinarize (g : GrayImage) : GrayImage :=
  let bl := simpleGaussianBlur g
  binarizeImage bl (calculateOtsuThreshold bl)

/-- The C8 counterexample input: a 5x5 black image with a single bright
center pixel, already strictly binary. -/
def singlePixelImage : GrayImage :=
  ⟨[0, 0, 0, 0, 0, 0, 0, 0, 0, 0, 0, 0, 255, 0, 0, 0, 0, 0, 0, 0, 0, 0, 0, 0, 0], 5, 5⟩

/-! ### Tile Normalizer (script.js 945-1062 advancedPreprocess, 1136-1196 pythonStylePreprocess) -/

/-- Floor of a rational (den is positive, so Int.fdiv of num and den). -/
def ratFloor (q : ℚ) : Int := Int.fdiv q.num (q.den : Int)

/-- Math.round on a rational: floor of q + 1/2. -/
def jsRound (q : ℚ) : Int := ratFloor (q + 1/2)

/-- Image moments, script.js 924-942: m00, m10, m01 over values normalized by
255, skipping zero pixels, scanned in row-major order. -/
def calculateImageMoments (img : GrayImage) : ℚ × ℚ × ℚ :=
  (List.range (img.height * img.width)).foldl
    (fun m i =>
      let v := img.data.getD i 0
      if 0 < v then
        (m.1 + (v : ℚ)/255, m.2.1 + ((i % img.width : Nat) : ℚ) * ((v : ℚ)/255),
          m.2.2 + ((i / img.width : Nat) : ℚ) * ((v : ℚ)/255))
      else m)
    (0, 0, 0)

/-- Step 3 of advancedPreprocess, script.js 980-999: dynamic padding
pad = floor(max(h, w)*0.45), black canvas, ROI copied to the center. -/
def advPad (roi : GrayImage) : Nat := (max roi.height roi.width) * 45 / 100

def advPadded (roi : GrayImage) : GrayImage :=
  buildImage (roi.width + 2 * advPad roi) (roi.height + 2 * advPad roi)
    (fun X Y =>
      if advPad roi ≤ X ∧ X < advPad roi + roi.width ∧
          advPad roi ≤ Y ∧ Y < advPad roi + roi.height then
        px (advDilated roi) (X - advPad roi) (Y - advPad roi)
      else 0)

/-- Nearest-neighbor resize to target x target, script.js 1001-1016 and
1171-1186: source index floor(x*srcW/target) and floor(y*srcH/target). -/
def nearestScale (src : GrayImage) (target : Nat) : GrayImage :=
  buildImage target target
    (fun x y => src.data.getD ((y * src.height / target) * src.width + (x * src.width / target)) 0)

/-- Step 4 of advancedPreprocess: the padded canvas scaled to 28x28. -/
def advScaled (roi : GrayImage) : GrayImage := nearestScale (advPadded roi) 28

/-- One destination pixel of the centroid-correcting shift, script.js
1032-1043: source coordinate Math.round(x - dx), out-of-range sources read as
background 0. -/
def advShiftPixel (roi : GrayImage) (dx dy : ℚ) (x y : Nat) : Nat :=
  if 0 ≤ jsRound ((x : ℚ) - dx) ∧ jsRound ((x : ℚ) - dx) < 28 ∧
      0 ≤ jsRound ((y : ℚ) - dy) ∧ jsRound ((y : ℚ) - dy) < 28 then
    (advScaled roi).data.getD
      ((jsRound ((y : ℚ) - dy)).toNat * 28 + (jsRound ((x : ℚ) - dx)).toNat) 0
  else 0

/-- Step 5 of advancedPreprocess, script.js 1018-1044: centroid correction with
dx = 14 - m10/m00 and dy = 14 - m01/m00; when m00 is zero the scaled tile is
kept unshifted. -/
def advCorrected (roi : GrayImage) : GrayImage :=
  if (calculateImageMoments (advScaled roi)).1 ≠ 0 then
    buildImage 28 28 (advShiftPixel roi
      (14 - (calculateImageMoments (advScaled roi)).2.1 / (calculateImageMoments (advScaled roi)).1)
      (14 - (calculateImageMoments (advScaled roi)).2.2 /
        (calculateImageMoments (advScaled roi)).1))
  else advScaled roi

/-- Embedded from src/script.js lines 945-1062: the handwriting-path Tile
Normalizer; final step divides by 255. -/
def advancedPreprocess (roi : GrayImage) : List ℚ :=
  (advCorrected roi).data.map (fun (v : Nat) => (v : ℚ)/255)

/-- Steps 1-5 of pythonStylePreprocess, script.js 1143-1169: square black
canvas of side size + 2*pad with pad = floor(size*0.4), ROI centered at
offsets floor((size - w)/2) + pad and floor((size - h)/2) + pad. -/
def pythonStyleSquare (roi : GrayImage) : GrayImage :=
  buildImage (max roi.width roi.height + (max roi.width roi.height * 40 / 100) * 2)
    (max roi.width roi.height + (max roi.width roi.height * 40 / 100) * 2)
    (fun X Y =>
      if (max roi.width roi.height - roi.width) / 2 + max roi.width roi.height * 40 / 100 ≤ X ∧
          X < (max roi.width roi.height - roi.width) / 2 + max roi.width roi.height * 40 / 100 +
            roi.width ∧
          (max roi.width roi.height - roi.height) / 2 + max roi.width roi.height * 40 / 100 ≤ Y ∧
          Y < (max roi.width roi.height - roi.height) / 2 + max roi.width roi.height * 40 / 100 +
            roi.height then
        roi.data.getD
          ((Y - ((max roi.width roi.height - roi.height) / 2 + max roi.width roi.height * 40 / 100))
              * roi.width +
            (X - ((max roi.width roi.height - roi.width) / 2 + max roi.width roi.height * 40 / 100)))
          0
      else 0)

/-- Embedded from src/script.js lines 1136-1196: the realtime-path Tile
Normalizer; final step applies the MNIST standardization
(v/255 - 0.1307)/0.3081. -/
def pythonStylePreprocess (roi : GrayImage) : List ℚ :=
  (nearestScale (pythonStyleSquare roi) 28).data.map
    (fun (v : Nat) => ((v : ℚ)/255 - 1307/10000) / (3081/10000))

/-! ### Components, region filtering and sorting -/

/-- Connected component record, script.js 874-883: bounding box, area, shape
statistics and the list of member pixels in BFS discovery order. -/
structure Component where
  x : Nat
  y : Nat
  w : Nat
  h : Nat
  area : Nat
  aspectRatio : ℚ
  solidity : ℚ
  pixels : List (Nat × Nat)
deriving DecidableEq

/-- Eight-neighbor directions, script.js 822-826, in source order. -/
def dirs8 : List (Int × Int) :=
  [(-1, -1), (0, -1), (1, -1), (-1, 0), (1, 0), (-1, 1), (0, 1), (1, 1)]

/-- Four-neighbor directions of the findComponents variant, script.js line 138. -/
def dirs4 : List (Int × Int) := [(0, 1), (0, -1), (1, 0), (-1, 0)]

/-- Number of unvisited cells; the BFS fuel bound. -/
def falseCount (l : List Bool) : Nat := l.count false

/-- Neighbor scan of one BFS step, script.js 853-866: for each direction, if
the neighbor is inside the image, foreground, and unvisited, mark it visited
and append it to the queue.  The visited read is get? = some false; the JS
bounds check guarantees the index is inside the visited array, so this agrees
with !visited[idx]. -/
def visitNbrs (w h : Nat) (fg : Nat → Nat → Bool) (cx cy : Nat) :
    List (Int × Int) → List Bool → List (Nat × Nat) → List Bool × List (Nat × Nat)
  | [], visited, queue => (visited, queue)
  | d :: rest, visited, queue =>
    if 0 ≤ (cx : Int) + d.1 ∧ (cx : Int) + d.1 < (w : Int) ∧
        0 ≤ (cy : Int) + d.2 ∧ (cy : Int) + d.2 < (h : Int) ∧
        fg ((cx : Int) + d.1).toNat ((cy : Int) + d.2).toNat = true ∧
        visited.get? (((cy : Int) + d.2).toNat * w + ((cx : Int) + d.1).toNat) = some false then
      visitNbrs w h fg cx cy rest
        (visited.set (((cy : Int) + d.2).toNat * w + ((cx : Int) + d.1).toNat) true)
        (queue ++ [(((cx : Int) + d.1).toNat, ((cy : Int) + d.2).toNat)])
    else visitNbrs w h fg cx cy rest visited queue

/-- BFS loop, script.js 841-867: dequeue from the front, collect the pixel,
enqueue the unvisited foreground neighbors.  The fuel argument bounds the
number of iterations; every enqueued pixel was freshly marked visited, so
unvisited-count plus queue-length never grows, and callers pass that measure
as fuel, which is proved sufficient below. -/
def bfsLoop (w h : Nat) (fg : Nat → Nat → Bool) (ds : List (Int × Int)) :
    Nat → List (Nat × Nat) → List Bool → List (Nat × Nat) × List Bool
  | _, [], visited => ([], visited)
  | 0, _ :: _, visited => ([], visited)
  | fuel + 1, c :: rest, visited =>
    let step := visitNbrs w h fg c.1 c.2 ds visited rest
    let next := bfsLoop w h fg ds fuel step.2 step.1
    (c :: next.1, next.2)

/-- Bounding box and statistics from the collected pixels, script.js 837-883.
The seed is the first dequeued pixel, so folding from the head matches the
incremental min/max tracking of the source. -/
def mkComponent (pixels : List (Nat × Nat)) : Component :=
  let xs := pixels.map Prod.fst
  let ys := pixels.map Prod.snd
  let minX := xs.foldl min (xs.headD 0)
  let maxX := xs.foldl max (xs.headD 0)
  let minY := ys.foldl min (ys.headD 0)
  let maxY := ys.foldl max (ys.headD 0)
  ⟨minX, minY, maxX - minX + 1, maxY - minY + 1, pixels.length,
    ((maxX - minX + 1 : Nat) : ℚ) / ((maxY - minY + 1 : Nat) : ℚ),
    ((pixels.length : Nat) : ℚ) /
      (((maxX - minX + 1 : Nat) : ℚ) * ((maxY - minY + 1 : Nat) : ℚ)),
    pixels⟩

/-- Outer scan of the component labeler, script.js 828-886: row-major over all
pixel indices; each unvisited foreground pixel seeds one BFS. -/
def ccLoop (w h : Nat) (fg : Nat → Nat → Bool) (ds : List (Int × Int)) :
    List Nat → List Bool → List Component × List Bool
  | [], visited => ([], visited)
  | i :: rest, visited =>
    if visited.get? i = some false ∧ fg (i % w) (i / w) = true then
      let res := bfsLoop w h fg ds (falseCount (visited.set i true) + 1)
        [(i % w, i / w)] (visited.set i true)
      let next := ccLoop w h fg ds rest res.2
      (mkComponent res.1 :: next.1, next.2)
    else ccLoop w h fg ds rest visited

/-- Foreground test of findConnectedComponents: mask value 255. -/
def fgOf (img : GrayImage) : Nat → Nat → Bool :=
  fun x y => img.data.getD (y * img.width + x) 0 == 255

/-- Embedded from src/script.js lines 816-889: 8-connected components of the
binary mask. -/
def findConnectedComponents (img : GrayImage) : List Component :=
  (ccLoop img.width img.height (fgOf img) dirs8
    (List.range (img.height * img.width))
    (List.replicate (img.width * img.height) false)).1

/-- RGBA image of the findComponents variant: 4 bytes per pixel, red channel
read at index idx*4. -/
structure RgbaImage where
  data : List Nat
  width : Nat
  height : Nat
deriving DecidableEq

/-- Component record of the findComponents variant, script.js line 165. -/
structure Comp4 where
  x : Nat
  y : Nat
  w : Nat
  h : Nat
  area : Nat
  pixels : List (Nat × Nat)
deriving DecidableEq

/-- Foreground test of findComponents, script.js 123: red channel above 100. -/
def fgRgba (img : RgbaImage) : Nat → Nat → Bool :=
  fun x y => decide (100 < img.data.getD ((y * img.width + x) * 4) 0)

/-- Outer scan of findComponents, script.js 119-168: 4-neighbor BFS plus the
inline filters (minArea, aspect-ratio window, solidity, border rule); filtered
components are dropped. -/
def fcLoop (img : RgbaImage) (minArea : Nat) :
    List Nat → List Bool → List Comp4 × List Bool
  | [], visited => ([], visited)
  | i :: rest, visited =>
    let w := img.width
    let h := img.height
    if visited.get? i = some false ∧ fgRgba img (i % w) (i / w) = true then
      let res := bfsLoop w h (fgRgba img) dirs4 (falseCount (visited.set i true) + 1)
        [(i % w, i / w)] (visited.set i true)
      let next := fcLoop img minArea rest res.2
      let xs := res.1.map Prod.fst
      let ys := res.1.map Prod.snd
      let minX := xs.foldl min (xs.headD 0)
      let maxX := xs.foldl max (xs.headD 0)
      let minY := ys.foldl min (ys.headD 0)
      let maxY := ys.foldl max (ys.headD 0)
      let cw := maxX - minX + 1
      let ch := maxY - minY + 1
      let area := res.1.length
      let aspect : ℚ := ((cw : Nat) : ℚ) / ((ch : Nat) : ℚ)
      let sol : ℚ := ((area : Nat) : ℚ) / (((cw : Nat) : ℚ) * ((ch : Nat) : ℚ))
      if area < minArea then next
      else if (5 : ℚ)/2 < aspect ∨ aspect < (15 : ℚ)/100 then next
      else if sol < (15 : ℚ)/100 then next
      else if (minX < 8 ∨ minY < 8 ∨ (w : Int) - 8 < (maxX : Int) ∨
          (h : Int) - 8 < (maxY : Int)) ∧ area < 1000 then next
      else (⟨minX, minY, cw, ch, area, res.1⟩ :: next.1, next.2)
    else fcLoop img minArea rest visited

/-- Sort of the findComponents output by ascending x, script.js line 169. -/
def sortComp4ByX (l : List Comp4) : List Comp4 :=
  List.insertionSort (fun a b => a.x ≤ b.x) l

/-- Embedded from src/script.js lines 113-170: the 4-connected variant.
minArea is 500 when realtime, else 150. -/
def findComponents (img : RgbaImage) (isRealtime : Bool) : List Comp4 :=
  sortComp4ByX
    (fcLoop img (if isRealtime then 500 else 150)
      (List.range (img.height * img.width))
      (List.replicate (img.width * img.height) false)).1

/-- Region filter of the handwriting path, script.js 1374-1396: the four
continue conditions negated.  The border rule uses Int arithmetic because
canvas.width - border is computed before comparison. -/
def keepComponent (isRealtime : Bool) (canvasW canvasH : Nat) (c : Component) : Bool :=
  let minArea : Nat := if isRealtime then 500 else 150
  if c.area < minArea then false
  else if (5 : ℚ)/2 < c.aspectRatio ∨ c.aspectRatio < (15 : ℚ)/100 then false
  else if c.solidity < (15 : ℚ)/100 then false
  else if (c.x < 8 ∨ c.y < 8 ∨ (canvasW : Int) - 8 < (c.x : Int) + (c.w : Int) ∨
      (canvasH : Int) - 8 < (c.y : Int) + (c.h : Int)) ∧ c.area < 1000 then false
  else true

/-- Region filter of the realtime camera path, script.js 1256-1286: central hot
zone, relative area window, and relaxed aspect-ratio window.  Ratios 0.2, 0.8,
0.002, 0.2, 0.05 and 1.2 are embedded as exact rationals. -/
def keepRealtimeComponent (w h : Nat) (c : Component) : Bool :=
  let centerX : ℚ := (c.x : ℚ) + (c.w : ℚ)/2
  let centerY : ℚ := (c.y : ℚ) + (c.h : ℚ)/2
  let totalPixels : ℚ := (w : ℚ) * (h : ℚ)
  decide (((2 : ℚ)/10 * (w : ℚ) < centerX ∧ centerX < (8 : ℚ)/10 * (w : ℚ) ∧
      (2 : ℚ)/10 * (h : ℚ) < centerY ∧ centerY < (8 : ℚ)/10 * (h : ℚ)) ∧
    (totalPixels * (2 : ℚ)/1000 < (c.area : ℚ) ∧ (c.area : ℚ) < totalPixels * (2 : ℚ)/10) ∧
    ((5 : ℚ)/100 < (c.w : ℚ)/(c.h : ℚ) ∧ (c.w : ℚ)/(c.h : ℚ) < (12 : ℚ)/10))

/-- Sort comparator of all three region lists: ascending x.  The JavaScript
Array.sort with comparator (a, b) => a.x - b.x is embedded as a sort by that
key. -/
def sortByX (l : List Component) : List Component :=
  List.insertionSort (fun a b => a.x ≤ b.x) l

/-- Region list handed to per-region classification on the handwriting path,
script.js 1374-1399: filter then sort ascending by x. -/
def filteredSortedComponents (isRealtime : Bool) (cw ch : Nat)
    (comps : List Component) : List Component :=
  sortByX (comps.filter (keepComponent isRealtime cw ch))

/-- Region list handed to per-region classification on the realtime camera
path, script.js 1254-1289: filter by hot zone, area and aspect, then sort. -/
def foundComponentsSorted (w h : Nat) (comps : List Component) : List Component :=
  sortByX (comps.filter (keepRealtimeComponent w h))

/-- Digit box of the part_000 variant, line 200. -/
structure DigitBox where
  x : Nat
  y : Nat
  w : Nat
  h : Nat
  area : Nat
deriving DecidableEq

/-- Sort of findDigitBoxes, src/unnamed/part_000 line 204: the box list is
returned sorted ascending by x. -/
def sortBoxesByX (l : List DigitBox) : List DigitBox :=
  List.insertionSort (fun a b => a.x ≤ b.x) l

instance : IsTotal Component (fun a b => a.x ≤ b.x) := ⟨fun a b => Nat.le_total a.x b.x⟩

instance : IsTrans Component (fun a b => a.x ≤ b.x) :=
  ⟨fun _ _ _ hab hbc => Nat.le_trans hab hbc⟩

instance : IsTotal DigitBox (fun a b => a.x ≤ b.x) := ⟨fun a b => Nat.le_total a.x b.x⟩

instance : IsTrans DigitBox (fun a b => a.x ≤ b.x) :=
  ⟨fun _ _ _ hab hbc => Nat.le_trans hab hbc⟩

/-- Two sample components that pass the handwriting filter on a 100x100 canvas,
listed right-to-left to exercise the sort. -/
def sampleCompA : Component :=
  ⟨30, 30, 20, 20, 400, 1, 1, []⟩

def sampleCompB : Component :=
  ⟨10, 30, 20, 20, 400, 1, 1, []⟩

/-! ### Touching-digit splitter (script.js 1422-1451, part_000 106-109) -/

/-- Vertical projection profile, script.js 1424-1432: per column, the count of
foreground (255) pixels in the ROI. -/
def verticalProjection (roi : GrayImage) : List Nat :=
  (List.range roi.width).map
    (fun x => (List.range roi.height).countP
      (fun y => roi.data.getD (y * roi.width + x) 0 == 255))

/-- Lower edge of the central search band, Math.floor(w*0.3). -/
def splitBandStart (w : Nat) : Nat := w * 30 / 100

/-- Upper edge of the central search band, Math.floor(w*0.7). -/
def splitBandStop (w : Nat) : Nat := w * 70 / 100

/-- One step of the split-point scan, script.js 1440-1445: strict less-than
keeps the earliest minimum. -/
def splitScanStep (proj : List Nat) (s : Nat × Nat) (xcol : Nat) : Nat × Nat :=
  if proj.getD xcol 0 < s.1 then (proj.getD xcol 0, xcol) else s

/-- Split-point search, script.js 1434-1445: scan the central band left to
right; minVal starts at h+1 and splitX at the band start. -/
def findSplitX (proj : List Nat) (w h : Nat) : Nat :=
  ((List.range' (splitBandStart w) (splitBandStop w - splitBandStart w)).foldl
    (splitScanStep proj) (h + 1, splitBandStart w)).2

/-- Touching-digit split of the handwriting path, script.js 1422-1451: applied
exactly when w > h*1.3; produces sub-ranges of widths splitX and w - splitX. -/
def splitRegion (comp : Component) (roi : GrayImage) : Option (Nat × Nat) :=
  if (comp.h : ℚ) * (13/10) < (comp.w : ℚ) then
    some (findSplitX (verticalProjection roi) comp.w comp.h,
      comp.w - findSplitX (verticalProjection roi) comp.w comp.h)
  else none

/-- Touching-digit split of the part_000 variant, lines 106-109: same trigger,
but the split column is always floor(w/2), with no projection scan. -/
def splitRegionHalf (w h : Nat) : Option (Nat × Nat) :=
  if (h : ℚ) * (13/10) < (w : ℚ) then some (w / 2, w - w / 2) else none

/-! ### C5: the split column -/

/-- Loop invariant of the split-point scan over the band columns in
range' c n: the state records the first minimum of the processed prefix. -/
def SplitInv (proj : List Nat) (start c : Nat) (s : Nat × Nat) : Prop :=
  start ≤ s.2 ∧ s.2 < c ∧ s.1 = proj.getD s.2 0 ∧
  (∀ x, start ≤ x → x < c → s.1 ≤ proj.getD x 0) ∧
  (∀ x, start ≤ x → x < s.2 → s.1 < proj.getD x 0)

/-- The ROI of the C5 counterexample: 10 wide, 7 high; every column except
column 3 has five foreground pixels, column 3 has none. -/
def splitCtrRoi : GrayImage :=
  buildImage 10 7 (fun x y => if x ≠ 3 ∧ y < 5 then 255 else 0)

/-! ### C9: the busy flag of predict (script.js 1199-1202, 1583-1596) -/

/-- Caller-visible state around predict: the busy flag, whether the model is
loaded, and the last displayed result. -/
structure AppState where
  isProcessing : Bool
  modelLoaded : Bool
  displayedResult : Option String
deriving DecidableEq

/-- Outcome of one pipeline run body: the try block either returns a digit
string or throws, and the catch block handles the throw. -/
inductive RunOutcome where
  | success : String → RunOutcome
  | failure : String → RunOutcome
deriving DecidableEq

/-- Embedded from script.js predict, lines 1199-1202 and 1583-1596: the guard
returns immediately when busy or when the model is missing; otherwise the flag
is set, the body runs (abstracted as the outcome), and the flag is cleared on
both the success path and the catch path before returning. -/
def predictEntry (s : AppState) (outcome : RunOutcome) : AppState × Option RunOutcome :=
  if s.isProcessing || !s.modelLoaded then (s, none)
  else
    match outcome with
    | .success r =>
        (⟨false, s.modelLoaded, some r⟩, some (.success r))
    | .failure e =>
        (⟨false, s.modelLoaded, some e⟩, some (.failure e))

/-! ### C7: all-black input -/

/-- Every buffer value is zero. -/
def AllZero (img : GrayImage) : Prop := ∀ v ∈ img.data, v = 0

/-- The C4 counterexample input: a 2x2 RGBA frame whose red channel is 255 at
the two diagonal pixels (0,0) and (1,1). -/
def diagRgba : RgbaImage :=
  ⟨[255, 0, 0, 255, 0, 0, 0, 255, 0, 0, 0, 255, 255, 0, 0, 255], 2, 2⟩

/-! ### C4: partition and maximality of findConnectedComponents -/

/-- Row-major index of a pixel position. -/
def pidx (w : Nat) (p : Nat × Nat) : Nat := p.2 * w + p.1

/-- Foreground position for a generic foreground test: in bounds and accepted. -/
def FgB (w h : Nat) (fg : Nat → Nat → Bool) (p : Nat × Nat) : Prop :=
  p.1 < w ∧ p.2 < h ∧ fg p.1 p.2 = true

/-- Foreground pixel of a mask: in bounds with value exactly 255. -/
def Fg (img : GrayImage) (p : Nat × Nat) : Prop :=
  p.1 < img.width ∧ p.2 < img.height ∧
    img.data.getD (p.2 * img.width + p.1) 0 = 255

/-- Eight-neighbor adjacency: distinct positions whose coordinates differ by at
most one in each direction. -/
def Adj8 (p q : Nat × Nat) : Prop :=
  p ≠ q ∧ p.1 ≤ q.1 + 1 ∧ q.1 ≤ p.1 + 1 ∧ p.2 ≤ q.2 + 1 ∧ q.2 ≤ p.2 + 1

/-- q is reachable from p in one hop along one of the scan directions. -/
def NbrVia (ds : List (Int × Int)) (p q : Nat × Nat) : Prop :=
  ∃ d ∈ ds, (p.1 : Int) + d.1 = (q.1 : Int) ∧ (p.2 : Int) + d.2 = (q.2 : Int)

theorem buildImage_data_length (w h : Nat) (f : Nat → Nat → Nat) :
    (buildImage w h f).data.length = h * w := by
  simp [buildImage]

theorem buildImage_px (w h : Nat) (f : Nat → Nat → Nat) (x y : Nat)
    (hx : x < w) (hy : y < h) : px (buildImage w h f) x y = f x y := by
  have hidx : y * w + x < h * w := by
    calc y * w + x < y * w + w := by omega
    _ = (y + 1) * w := by ring
    _ ≤ h * w := Nat.mul_le_mul_right w (by omega)
  have h1 : ((List.range (h * w)).map (fun i => f (i % w) (i / w)))[y * w + x]? =
      some (f ((y * w + x) % w) ((y * w + x) / w)) := by
    rw [List.getElem?_map, List.getElem?_range hidx]
    rfl
  have hmod : (y * w + x) % w = x := by
    rw [Nat.add_comm, Nat.add_mul_mod_self_right]
    exact Nat.mod_eq_of_lt hx
  have hdiv : (y * w + x) / w = y := by
    rw [Nat.add_comm, Nat.add_mul_div_right _ _ (by omega : 0 < w)]
    rw [Nat.div_eq_of_lt hx]
    omega
  simp only [px, buildImage, List.getD_eq_getElem?_getD, h1, hmod, hdiv, Option.getD_some]

theorem mem_buildImage_data {w h : Nat} {f : Nat → Nat → Nat} {v : Nat}
    (hv : v ∈ (buildImage w h f).data) : ∃ x y, x < w ∧ y < h ∧ v = f x y := by
  simp only [buildImage, List.mem_map, List.mem_range] at hv
  obtain ⟨i, hi, hfi⟩ := hv
  have hw : 0 < w := Nat.pos_of_ne_zero (by
    intro h0
    rw [h0, Nat.mul_zero] at hi
    exact absurd hi (Nat.not_lt_zero i))
  refine ⟨i % w, i / w, Nat.mod_lt _ hw, ?_, hfi.symm⟩
  exact (Nat.div_lt_iff_lt_mul hw).mpr hi

/-- A getD read is either a member of the list or the default. -/
theorem getD_mem_or (l : List Nat) (i d : Nat) : l.getD i d ∈ l ∨ l.getD i d = d := by
  rcases Nat.lt_or_ge i l.length with h | h
  · left
    rw [List.getD_eq_getElem?_getD, List.getElem?_eq_getElem h, Option.getD_some]
    exact List.getElem_mem h
  · right
    rw [List.getD_eq_getElem?_getD, List.getElem?_eq_none (by omega), Option.getD_none]

theorem foldl_dilateStep_le_self (img : GrayImage) (x y : Nat) (l : List (Int × Int))
    (m : Nat) : m ≤ l.foldl (dilateStep img x y) m := by
  induction l generalizing m with
  | nil => exact Nat.le_refl m
  | cons d rest ih =>
    rw [List.foldl_cons]
    refine Nat.le_trans ?_ (ih (dilateStep img x y m d))
    unfold dilateStep
    split
    · exact Nat.le_max_left _ _
    · exact Nat.le_refl m

theorem foldl_dilateStep_ge_of_mem (img : GrayImage) (x y : Nat) (l : List (Int × Int))
    (d : Int × Int)
    (hcond : 0 ≤ (x : Int) + d.1 ∧ (x : Int) + d.1 < (img.width : Int) ∧
      0 ≤ (y : Int) + d.2 ∧ (y : Int) + d.2 < (img.height : Int)) :
    ∀ (m : Nat), d ∈ l →
      px img ((x : Int) + d.1).toNat ((y : Int) + d.2).toNat ≤
        l.foldl (dilateStep img x y) m := by
  induction l with
  | nil => intro m hd; cases hd
  | cons e rest ih =>
    intro m hd
    rw [List.foldl_cons]
    rcases List.mem_cons.mp hd with heq | hmem
    · subst heq
      refine Nat.le_trans ?_ (foldl_dilateStep_le_self img x y rest (dilateStep img x y m d))
      unfold dilateStep
      rw [if_pos hcond]
      exact Nat.le_max_right _ _
    · exact ih (dilateStep img x y m e) hmem

theorem foldl_dilateStep_binary (img : GrayImage) (x y : Nat)
    (hbin : ∀ v ∈ img.data, v = 0 ∨ v = 255) (l : List (Int × Int)) :
    ∀ (m : Nat), m = 0 ∨ m = 255 →
      l.foldl (dilateStep img x y) m = 0 ∨ l.foldl (dilateStep img x y) m = 255 := by
  induction l with
  | nil => intro m hm; exact hm
  | cons d rest ih =>
    intro m hm
    rw [List.foldl_cons]
    refine ih (dilateStep img x y m d) ?_
    unfold dilateStep
    split
    · have hpx : px img ((x : Int) + d.1).toNat ((y : Int) + d.2).toNat = 0 ∨
          px img ((x : Int) + d.1).toNat ((y : Int) + d.2).toNat = 255 := by
        rcases getD_mem_or img.data (((y : Int) + d.2).toNat * img.width +
            ((x : Int) + d.1).toNat) 0 with h | h
        · exact hbin _ h
        · left; exact h
      rcases hm with hm | hm <;> rcases hpx with hpx | hpx <;>
        simp [hm, hpx, Nat.max_def]
    · exact hm

theorem mem_winOffsets (half : Nat) (dx dy : Int) :
    (dx, dy) ∈ winOffsets half ↔
      -(half : Int) ≤ dx ∧ dx ≤ half ∧ -(half : Int) ≤ dy ∧ dy ≤ half := by
  constructor
  · intro hmem
    rw [winOffsets, List.mem_flatMap] at hmem
    obtain ⟨a, ha, hmap⟩ := hmem
    rw [List.mem_map] at hmap
    obtain ⟨b, hb, heq⟩ := hmap
    rw [List.mem_range] at ha hb
    have h1 : (b : Int) - half = dx := congrArg Prod.fst heq
    have h2 : (a : Int) - half = dy := congrArg Prod.snd heq
    omega
  · rintro ⟨h1, h2, h3, h4⟩
    rw [winOffsets, List.mem_flatMap]
    refine ⟨(dy + half).toNat, List.mem_range.mpr (by omega), ?_⟩
    rw [List.mem_map]
    refine ⟨(dx + half).toNat, List.mem_range.mpr (by omega), ?_⟩
    have e1 : (((dx + half).toNat : Nat) : Int) - half = dx := by omega
    have e2 : (((dy + half).toNat : Nat) : Int) - half = dy := by omega
    rw [e1, e2]

theorem zero_offset_mem_winOffsets (half : Nat) : ((0 : Int), (0 : Int)) ∈ winOffsets half := by
  refine (mem_winOffsets half 0 0).mpr ?_
  refine ⟨?_, ?_, ?_, ?_⟩ <;> omega

/-- Pointwise extensivity of the dilation at an in-bounds pixel. -/
theorem dilatePixel_ge (img : GrayImage) (half : Nat) (x y : Nat)
    (hx : x < img.width) (hy : y < img.height) : px img x y ≤ dilatePixel img half x y := by
  have hcond : (0 : Int) ≤ (x : Int) + 0 ∧ (x : Int) + 0 < (img.width : Int) ∧
      (0 : Int) ≤ (y : Int) + 0 ∧ (y : Int) + 0 < (img.height : Int) := by omega
  have h := foldl_dilateStep_ge_of_mem img x y (winOffsets half) (0, 0) hcond 0
    (zero_offset_mem_winOffsets half)
  simp only [show (((0 : Int), (0 : Int))).1 = 0 from rfl,
    show (((0 : Int), (0 : Int))).2 = 0 from rfl] at h
  have hx0 : (((x : Int) + 0).toNat) = x := by omega
  have hy0 : (((y : Int) + 0).toNat) = y := by omega
  rw [hx0, hy0] at h
  exact h

theorem advBinary_data_binary (roi : GrayImage) :
    ∀ v ∈ (advBinary roi).data, v = 0 ∨ v = 255 := by
  intro v hv
  simp only [advBinary, List.mem_map] at hv
  obtain ⟨u, _, hu⟩ := hv
  by_cases h : 128 < u
  · right; rw [← hu]; simp [h]
  · left; rw [← hu]; simp [h]

/-- Helper: dilation is pointwise extensive at in-bounds pixels. -/
theorem dilateBinary_extensive (img : GrayImage) (k x y : Nat)
    (hx : x < img.width) (hy : y < img.height) :
    px img x y ≤ px (dilateBinary img k) x y := by
  rw [dilateBinary, buildImage_px _ _ _ _ _ hx hy]
  exact dilatePixel_ge img (k / 2) x y hx hy

/-- Helper: dilation maps a strictly two-level image to a strictly two-level
image. -/
theorem dilateBinary_data_binary (img : GrayImage) (k : Nat)
    (hb : ∀ v ∈ img.data, v = 0 ∨ v = 255) :
    ∀ v ∈ (dilateBinary img k).data, v = 0 ∨ v = 255 := by
  intro v hv
  obtain ⟨x, y, _, _, hval⟩ := mem_buildImage_data hv
  rw [hval]
  exact foldl_dilateStep_binary img x y hb (winOffsets (k / 2)) 0 (Or.inl rfl)

/-- C10: dilateBinary (and the inline dilation step of advancedPreprocess) is
extensive, every output pixel is at least the input pixel, and binary
preserving, a strictly two-level input yields a strictly two-level output. -/
theorem dilation_extensive_and_binary :
    (∀ (img : GrayImage) (k x y : Nat), x < img.width → y < img.height →
        px img x y ≤ px (dilateBinary img k) x y)
  ∧ (∀ (img : GrayImage) (k : Nat), (∀ v ∈ img.data, v = 0 ∨ v = 255) →
        ∀ v ∈ (dilateBinary img k).data, v = 0 ∨ v = 255)
  ∧ (∀ (roi : GrayImage) (x y : Nat), x < roi.width → y < roi.height →
        px (advBinary roi) x y ≤ px (advDilated roi) x y)
  ∧ (∀ (roi : GrayImage), ∀ v ∈ (advDilated roi).data, v = 0 ∨ v = 255) := by
  refine ⟨dilateBinary_extensive, dilateBinary_data_binary, ?_, ?_⟩
  · intro roi x y hx hy
    exact dilateBinary_extensive (advBinary roi) 2 x y hx hy
  · intro roi v hv
    exact dilateBinary_data_binary (advBinary roi) 2 (advBinary_data_binary roi) v hv

/-- Witness for C10 at a concrete one-pixel image. -/
theorem dilation_extensive_and_binary_witness :
    px ⟨[255], 1, 1⟩ 0 0 ≤ px (dilateBinary ⟨[255], 1, 1⟩ 2) 0 0 ∧
    (∀ v ∈ (dilateBinary ⟨[255], 1, 1⟩ 2).data, v = 0 ∨ v = 255) := by
  constructor
  · exact dilation_extensive_and_binary.1 ⟨[255], 1, 1⟩ 2 0 0 (by decide) (by decide)
  · exact dilation_extensive_and_binary.2.1 ⟨[255], 1, 1⟩ 2 (by decide)

/-- C3: in both processing modes, and in the part_000 variant, the region list
handed to per-region classification is sorted ascending by x: for output
indices i < j the region at i has x at most the x of the region at j. -/
theorem region_lists_sorted_by_x :
    (∀ (rt : Bool) (cw ch : Nat) (comps : List Component)
        (i j : Fin (filteredSortedComponents rt cw ch comps).length), (i : Nat) < (j : Nat) →
        ((filteredSortedComponents rt cw ch comps).get i).x ≤
          ((filteredSortedComponents rt cw ch comps).get j).x)
  ∧ (∀ (w h : Nat) (comps : List Component)
        (i j : Fin (foundComponentsSorted w h comps).length), (i : Nat) < (j : Nat) →
        ((foundComponentsSorted w h comps).get i).x ≤
          ((foundComponentsSorted w h comps).get j).x)
  ∧ (∀ (boxes : List DigitBox)
        (i j : Fin (sortBoxesByX boxes).length), (i : Nat) < (j : Nat) →
        ((sortBoxesByX boxes).get i).x ≤ ((sortBoxesByX boxes).get j).x) := by
  refine ⟨?_, ?_, ?_⟩
  · intro rt cw ch comps i j hij
    exact (List.sorted_insertionSort (fun a b => a.x ≤ b.x)
      ((comps.filter (keepComponent rt cw ch)))).rel_get_of_lt hij
  · intro w h comps i j hij
    exact (List.sorted_insertionSort (fun a b => a.x ≤ b.x)
      ((comps.filter (keepRealtimeComponent w h)))).rel_get_of_lt hij
  · intro boxes i j hij
    exact (List.sorted_insertionSort (fun a b => a.x ≤ b.x) boxes).rel_get_of_lt hij

/-- Witness for C3 at a concrete out-of-order input list. -/
theorem region_lists_sorted_by_x_witness :
    ((filteredSortedComponents false 100 100 [sampleCompA, sampleCompB]).get
        ⟨0, by decide⟩).x ≤
      ((filteredSortedComponents false 100 100 [sampleCompA, sampleCompB]).get
        ⟨1, by decide⟩).x :=
  region_lists_sorted_by_x.1 false 100 100 [sampleCompA, sampleCompB]
    ⟨0, by decide⟩ ⟨1, by decide⟩ (by decide)

/-- The second component of the split scan is the start value or a scanned column. -/
theorem splitScan_snd_mem (proj : List Nat) :
    ∀ (xs : List Nat) (s : Nat × Nat),
      ((xs.foldl (splitScanStep proj) s).2 = s.2) ∨ (xs.foldl (splitScanStep proj) s).2 ∈ xs := by
  intro xs
  induction xs with
  | nil => intro s; left; rfl
  | cons x rest ih =>
    intro s
    rw [List.foldl_cons]
    by_cases hc : proj.getD x 0 < s.1
    · have hstep : splitScanStep proj s x = (proj.getD x 0, x) := by
        unfold splitScanStep; rw [if_pos hc]
      rw [hstep]
      rcases ih (proj.getD x 0, x) with hrec | hrec
      · right; rw [hrec]; exact List.mem_cons_self x rest
      · right; exact List.mem_cons_of_mem x hrec
    · have hstep : splitScanStep proj s x = s := by
        unfold splitScanStep; rw [if_neg hc]
      rw [hstep]
      rcases ih s with hrec | hrec
      · left; exact hrec
      · right; exact List.mem_cons_of_mem x hrec

theorem splitBandStart_le (w : Nat) : splitBandStart w ≤ w := by
  unfold splitBandStart
  omega

theorem splitBandStop_le (w : Nat) : splitBandStop w ≤ w := by
  unfold splitBandStop
  omega

theorem findSplitX_le (proj : List Nat) (w h : Nat) : findSplitX proj w h ≤ w := by
  unfold findSplitX
  rcases splitScan_snd_mem proj
      (List.range' (splitBandStart w) (splitBandStop w - splitBandStart w))
      (h + 1, splitBandStart w) with hh | hh
  · rw [hh]; exact splitBandStart_le w
  · have hmem := List.mem_range'_1.mp hh
    have := splitBandStop_le w
    omega

/-- C6: the touching-digit split is applied exactly when w > h*1.3; whenever it
is applied the two produced sub-region widths sum exactly to w.  This holds in
the script.js predict and in the part_000 variant. -/
theorem split_trigger_iff_and_width_sum :
    (∀ (comp : Component) (roi : GrayImage),
        (splitRegion comp roi).isSome = true ↔ (comp.h : ℚ) * (13/10) < (comp.w : ℚ))
  ∧ (∀ (comp : Component) (roi : GrayImage) (a b : Nat),
        splitRegion comp roi = some (a, b) → a + b = comp.w)
  ∧ (∀ (w h : Nat), (splitRegionHalf w h).isSome = true ↔ (h : ℚ) * (13/10) < (w : ℚ))
  ∧ (∀ (w h a b : Nat), splitRegionHalf w h = some (a, b) → a + b = w) := by
  refine ⟨?_, ?_, ?_, ?_⟩
  · intro comp roi
    unfold splitRegion
    by_cases hc : (comp.h : ℚ) * (13/10) < (comp.w : ℚ)
    · rw [if_pos hc]; simp [hc]
    · rw [if_neg hc]; simp [hc]
  · intro comp roi a b hsome
    unfold splitRegion at hsome
    by_cases hc : (comp.h : ℚ) * (13/10) < (comp.w : ℚ)
    · rw [if_pos hc] at hsome
      injection hsome with h1
      have ha : findSplitX (verticalProjection roi) comp.w comp.h = a :=
        congrArg Prod.fst h1
      have hb : comp.w - findSplitX (verticalProjection roi) comp.w comp.h = b :=
        congrArg Prod.snd h1
      have hle := findSplitX_le (verticalProjection roi) comp.w comp.h
      omega
    · rw [if_neg hc] at hsome
      cases hsome
  · intro w h
    unfold splitRegionHalf
    by_cases hc : (h : ℚ) * (13/10) < (w : ℚ)
    · rw [if_pos hc]; simp [hc]
    · rw [if_neg hc]; simp [hc]
  · intro w h a b hsome
    unfold splitRegionHalf at hsome
    by_cases hc : (h : ℚ) * (13/10) < (w : ℚ)
    · rw [if_pos hc] at hsome
      injection hsome with h1
      have ha : w / 2 = a := congrArg Prod.fst h1
      have hb : w - w / 2 = b := congrArg Prod.snd h1
      have : w / 2 ≤ w := Nat.div_le_self w 2
      omega
    · rw [if_neg hc] at hsome
      cases hsome

/-- Witness for C6 at a concrete wide component (w = 14, h = 10, so
w > h*1.3 holds) over a blank 14x10 ROI. -/
theorem split_trigger_iff_and_width_sum_witness :
    (splitRegion ⟨0, 0, 14, 10, 140, 7/5, 1, []⟩ ⟨List.replicate 140 0, 14, 10⟩).isSome = true ∧
    (∀ a b, splitRegion ⟨0, 0, 14, 10, 140, 7/5, 1, []⟩ ⟨List.replicate 140 0, 14, 10⟩ =
      some (a, b) → a + b = 14) := by
  constructor
  · exact (split_trigger_iff_and_width_sum.1 ⟨0, 0, 14, 10, 140, 7/5, 1, []⟩
      ⟨List.replicate 140 0, 14, 10⟩).mpr (by norm_num)
  · intro a b hab
    exact split_trigger_iff_and_width_sum.2.1 ⟨0, 0, 14, 10, 140, 7/5, 1, []⟩
      ⟨List.replicate 140 0, 14, 10⟩ a b hab

theorem splitScan_inv (proj : List Nat) (start : Nat) :
    ∀ (n c : Nat) (s : Nat × Nat), SplitInv proj start c s →
      SplitInv proj start (c + n) ((List.range' c n).foldl (splitScanStep proj) s) := by
  intro n
  induction n with
  | zero => intro c s hs; simpa using hs
  | succ m ih =>
    intro c s hs
    rw [List.range'_succ, List.foldl_cons]
    have hnext : SplitInv proj start (c + 1) (splitScanStep proj s c) := by
      obtain ⟨h1, h2, h3, h4, h5⟩ := hs
      unfold splitScanStep SplitInv
      by_cases hc : proj.getD c 0 < s.1
      · rw [if_pos hc]
        refine ⟨by omega, by omega, rfl, ?_, ?_⟩
        · intro x hx1 hx2
          rcases Nat.lt_or_ge x c with hx | hx
          · exact Nat.le_of_lt (Nat.lt_of_lt_of_le hc (h4 x hx1 hx))
          · have hxe : x = c := by omega
            subst hxe
            exact Nat.le_refl _
        · intro x hx1 hx2
          exact Nat.lt_of_lt_of_le hc (h4 x hx1 hx2)
      · rw [if_neg hc]
        refine ⟨h1, by omega, h3, ?_, h5⟩
        intro x hx1 hx2
        rcases Nat.lt_or_ge x c with hx | hx
        · exact h4 x hx1 hx
        · have hxe : x = c := by omega
          subst hxe
          omega
    have := ih (c + 1) (splitScanStep proj s c) hnext
    have harith : c + 1 + m = c + (m + 1) := by omega
    rw [harith] at this
    exact this

/-- C5 amended, script.js side: under the real loop preconditions (the band is
nonempty and every band column projection is at most h, which holds for any
h-row ROI), findSplitX returns exactly the first column of the central band
achieving the minimum projection. -/
theorem findSplitX_first_band_argmin (proj : List Nat) (w h : Nat)
    (hband : splitBandStart w < splitBandStop w)
    (hbound : ∀ x, splitBandStart w ≤ x → x < splitBandStop w → proj.getD x 0 ≤ h) :
    splitBandStart w ≤ findSplitX proj w h ∧ findSplitX proj w h < splitBandStop w ∧
    (∀ x, splitBandStart w ≤ x → x < splitBandStop w →
      proj.getD (findSplitX proj w h) 0 ≤ proj.getD x 0) ∧
    (∀ x, splitBandStart w ≤ x → x < findSplitX proj w h →
      proj.getD (findSplitX proj w h) 0 < proj.getD x 0) := by
  set start := splitBandStart w with hstart
  set stop := splitBandStop w with hstop
  obtain ⟨k, hk⟩ : ∃ k, stop - start = k + 1 := ⟨stop - start - 1, by omega⟩
  have hrange : List.range' start (stop - start) =
      start :: List.range' (start + 1) k := by
    rw [hk, List.range'_succ]
  have hfirst : SplitInv proj start (start + 1) (splitScanStep proj (h + 1, start) start) := by
    unfold splitScanStep SplitInv
    have hb := hbound start (Nat.le_refl start) hband
    have hc : proj.getD start 0 < ((h + 1 : Nat), start).1 := by
      show proj.getD start 0 < h + 1
      omega
    rw [if_pos hc]
    refine ⟨Nat.le_refl start, by omega, rfl, ?_, ?_⟩
    · intro x hx1 hx2
      have hxe : x = start := by omega
      subst hxe
      exact Nat.le_refl _
    · intro x hx1 hx2
      omega
  have hinv := splitScan_inv proj start k (start + 1)
    (splitScanStep proj (h + 1, start) start) hfirst
  have harith : start + 1 + k = stop := by omega
  rw [harith] at hinv
  have hres : findSplitX proj w h =
      ((List.range' start (stop - start)).foldl (splitScanStep proj) (h + 1, start)).2 := rfl
  rw [hrange, List.foldl_cons] at hres
  obtain ⟨h1, h2, h3, h4, h5⟩ := hinv
  refine ⟨by rw [hres]; exact h1, by rw [hres]; exact h2, ?_, ?_⟩
  · intro x hx1 hx2
    rw [hres, ← h3]
    exact h4 x hx1 hx2
  · intro x hx1 hx2
    rw [hres, ← h3]
    exact h5 x hx1 (by rw [← hres]; exact hx2)

/-- Witness for C5 at a concrete projection: w = 10, h = 7, band is
columns 3 to 6, projections there are 0, 5, 5, 5, so the returned split
column is 3. -/
theorem findSplitX_first_band_argmin_witness :
    splitBandStart 10 < splitBandStop 10 ∧
    (splitBandStart 10 ≤ findSplitX [5, 5, 5, 0, 5, 5, 5, 5, 5, 5] 10 7 ∧
      findSplitX [5, 5, 5, 0, 5, 5, 5, 5, 5, 5] 10 7 < splitBandStop 10 ∧
      (∀ x, splitBandStart 10 ≤ x → x < splitBandStop 10 →
        ([5, 5, 5, 0, 5, 5, 5, 5, 5, 5] : List Nat).getD
            (findSplitX [5, 5, 5, 0, 5, 5, 5, 5, 5, 5] 10 7) 0 ≤
          ([5, 5, 5, 0, 5, 5, 5, 5, 5, 5] : List Nat).getD x 0) ∧
      (∀ x, splitBandStart 10 ≤ x → x < findSplitX [5, 5, 5, 0, 5, 5, 5, 5, 5, 5] 10 7 →
        ([5, 5, 5, 0, 5, 5, 5, 5, 5, 5] : List Nat).getD
            (findSplitX [5, 5, 5, 0, 5, 5, 5, 5, 5, 5] 10 7) 0 <
          ([5, 5, 5, 0, 5, 5, 5, 5, 5, 5] : List Nat).getD x 0)) :=
  ⟨by decide, findSplitX_first_band_argmin [5, 5, 5, 0, 5, 5, 5, 5, 5, 5] 10 7
    (by decide) (by decide)⟩

/-- C5 counterexample: for a component of width 10 and height 7 the split
triggers (10 > 7*1.3), the first band argmin of the projection is column 3,
but the part_000 variant splits at floor(10/2) = 5, not at the projection
minimum. -/
theorem half_split_not_projection_argmin :
    ((7 : ℚ) * (13/10) < (10 : ℚ)) ∧
    findSplitX (verticalProjection splitCtrRoi) 10 7 = 3 ∧
    splitRegionHalf 10 7 = some (5, 5) ∧
    (5 : Nat) ≠ findSplitX (verticalProjection splitCtrRoi) 10 7 := by
  refine ⟨by norm_num, by decide, ?_, by decide⟩
  unfold splitRegionHalf
  rw [if_pos (by norm_num)]

/-- C9: at most one run is in flight: a call while busy (or with no model)
returns immediately with no state change and no result, and whenever a run
finishes, on the success and on the error path alike, the busy flag is
cleared. -/
theorem predict_busy_flag :
    (∀ (s : AppState) (o : RunOutcome), s.isProcessing = true ∨ s.modelLoaded = false →
        predictEntry s o = (s, none))
  ∧ (∀ (s : AppState) (o : RunOutcome), s.isProcessing = false → s.modelLoaded = true →
        (predictEntry s o).1.isProcessing = false ∧ (predictEntry s o).2 = some o) := by
  constructor
  · intro s o hguard
    unfold predictEntry
    have hcond : (s.isProcessing || !s.modelLoaded) = true := by
      rcases hguard with hg | hg <;> simp [hg]
    rw [hcond]
    simp
  · intro s o hp hm
    unfold predictEntry
    have hcond : (s.isProcessing || !s.modelLoaded) = false := by simp [hp, hm]
    rw [hcond]
    cases o <;> simp

/-- Witness for C9: a busy state is left untouched, and a completed failing run
ends with the flag cleared. -/
theorem predict_busy_flag_witness :
    predictEntry ⟨true, true, none⟩ (.success "7") = (⟨true, true, none⟩, none) ∧
    ((predictEntry ⟨false, true, none⟩ (.failure "err")).1.isProcessing = false ∧
      (predictEntry ⟨false, true, none⟩ (.failure "err")).2 = some (.failure "err")) :=
  ⟨predict_busy_flag.1 ⟨true, true, none⟩ (.success "7") (Or.inl rfl),
    predict_busy_flag.2 ⟨false, true, none⟩ (.failure "err") rfl rfl⟩

theorem AllZero.getD_eq {img : GrayImage} (hz : AllZero img) (i : Nat) :
    img.data.getD i 0 = 0 := by
  rcases getD_mem_or img.data i 0 with h | h
  · exact hz _ h
  · exact h

theorem AllZero.px_eq {img : GrayImage} (hz : AllZero img) (x y : Nat) :
    px img x y = 0 := hz.getD_eq _

theorem allBlack_allZero (w h : Nat) : AllZero (allBlack w h) := by
  intro v hv
  exact (List.eq_of_mem_replicate hv)

theorem foldl_add_eq_zero (l : List Nat) (hz : ∀ v ∈ l, v = 0) :
    l.foldl (fun a v => a + v) 0 = 0 := by
  have key : ∀ (a : Nat), l.foldl (fun a v => a + v) a = a := by
    induction l with
    | nil => intro a; rfl
    | cons v rest ih =>
      intro a
      rw [List.foldl_cons]
      have hv : v = 0 := hz v (List.mem_cons_self v rest)
      rw [hv]
      exact ih (fun u hu => hz u (List.mem_cons_of_mem v hu)) a
  exact key 0

theorem avgBrightness_allZero {img : GrayImage} (hz : AllZero img) :
    calculateAverageBrightness img = 0 := by
  unfold calculateAverageBrightness
  rw [foldl_add_eq_zero img.data hz]
  simp

theorem AllZero.blur {img : GrayImage} (hz : AllZero img) :
    AllZero (simpleGaussianBlur img) := by
  intro v hv
  obtain ⟨x, y, hx, hy, hval⟩ := mem_buildImage_data hv
  rw [hval]
  unfold blurPixel
  split
  · exact hz.px_eq x y
  · simp only [hz.px_eq]

theorem AllZero.binarize {img : GrayImage} (hz : AllZero img) (t : Nat) :
    AllZero (binarizeImage img t) := by
  intro v hv
  simp only [binarizeImage, List.mem_map] at hv
  obtain ⟨u, hu, huv⟩ := hv
  have hu0 : u = 0 := hz u hu
  rw [← huv, hu0]
  simp

theorem mem_windowValues_zero {img : GrayImage} (hz : AllZero img)
    (radius x y : Nat) : ∀ u ∈ windowValues img radius x y, u = 0 := by
  intro u hu
  obtain ⟨d, _, hd⟩ := List.mem_filterMap.mp hu
  split at hd
  · rw [← Option.some.inj hd]
    exact hz.px_eq _ _
  · cases hd

theorem AllZero.median {img : GrayImage} (hz : AllZero img) (k : Nat) :
    AllZero (medianBlur img k) := by
  intro v hv
  obtain ⟨x, y, hx, hy, hval⟩ := mem_buildImage_data hv
  rw [hval]
  unfold medianBlurPixel
  rcases getD_mem_or
      (List.insertionSort (fun a b => a ≤ b) (windowValues img (k / 2) x y))
      ((windowValues img (k / 2) x y).length / 2) 0 with hmem | hdef
  · have hperm := List.perm_insertionSort (fun a b => a ≤ b) (windowValues img (k / 2) x y)
    exact mem_windowValues_zero hz (k / 2) x y _ (hperm.mem_iff.mp hmem)
  · exact hdef

theorem AllZero.adaptive {img : GrayImage} (hz : AllZero img) (b C : Nat)
    (hC : 0 < C) : AllZero (adaptiveThreshold img b C) := by
  intro v hv
  obtain ⟨x, y, hx, hy, hval⟩ := mem_buildImage_data hv
  rw [hval]
  unfold adaptiveThresholdPixel
  rw [if_pos]
  rw [foldl_add_eq_zero _ (mem_windowValues_zero hz (b / 2) x y), hz.px_eq x y]
  have hcast : ((0 : Nat) : ℚ) = 0 := by norm_cast
  rw [hcast, zero_div]
  have hCpos : (0 : ℚ) < (C : ℚ) := by exact_mod_cast hC
  linarith

theorem AllZero.dilate {img : GrayImage} (hz : AllZero img) (k : Nat) :
    AllZero (dilateBinary img k) := by
  intro v hv
  obtain ⟨x, y, hx, hy, hval⟩ := mem_buildImage_data hv
  rw [hval]
  unfold dilatePixel
  have key : ∀ (l : List (Int × Int)), l.foldl (dilateStep img x y) 0 = 0 := by
    intro l
    induction l with
    | nil => rfl
    | cons d rest ih =>
      rw [List.foldl_cons]
      have hstep : dilateStep img x y 0 d = 0 := by
        unfold dilateStep
        split
        · rw [hz.px_eq]
          rfl
        · rfl
      rw [hstep]
      exact ih
  exact key _

theorem AllZero.fgOf_false {img : GrayImage} (hz : AllZero img) (x y : Nat) :
    fgOf img x y = false := by
  unfold fgOf
  rw [hz.getD_eq]
  rfl

theorem ccLoop_no_fg (w h : Nat) (fg : Nat → Nat → Bool) (ds : List (Int × Int))
    (hfg : ∀ x y, fg x y = false) :
    ∀ (idxs : List Nat) (visited : List Bool), (ccLoop w h fg ds idxs visited).1 = [] := by
  intro idxs
  induction idxs with
  | nil => intro visited; rfl
  | cons i rest ih =>
    intro visited
    unfold ccLoop
    rw [if_neg]
    · exact ih visited
    · intro hcontra
      rw [hfg] at hcontra
      exact absurd hcontra.2 (by simp)

theorem findConnectedComponents_allZero {img : GrayImage} (hz : AllZero img) :
    findConnectedComponents img = [] := by
  unfold findConnectedComponents
  exact ccLoop_no_fg img.width img.height (fgOf img) dirs8 hz.fgOf_false _ _

/-- C7: an all-black input of any size yields the empty region list on the
handwriting path and on the realtime camera path; the pipeline returns it as a
valid value, not an error. -/
theorem all_black_regions_empty (w h cw ch : Nat) (rt : Bool) :
    filteredSortedComponents rt cw ch
        (findConnectedComponents (handwritingMask (allBlack w h))) = [] ∧
    foundComponentsSorted w h
        (findConnectedComponents (realtimeMask (allBlack w h))) = [] := by
  have hz0 := allBlack_allZero w h
  constructor
  · have hmask : AllZero (handwritingMask (allBlack w h)) := by
      unfold handwritingMask
      rw [if_neg]
      · exact (hz0.blur).binarize _
      · rw [avgBrightness_allZero hz0]
        norm_num
    rw [findConnectedComponents_allZero hmask]
    rfl
  · have hmask : AllZero (realtimeMask (allBlack w h)) := by
      unfold realtimeMask
      exact ((hz0.median 5).adaptive 31 12 (by norm_num)).dilate 2
    rw [findConnectedComponents_allZero hmask]
    rfl

/-! ### C8: idempotence of the Denoiser plus Binarizer pair -/

theorem count_zero_add_count_255 (l : List Nat) (hbin : ∀ v ∈ l, v = 0 ∨ v = 255) :
    l.count 0 + l.count 255 = l.length := by
  induction l with
  | nil => rfl
  | cons v rest ih =>
    have hv := hbin v (List.mem_cons_self v rest)
    have ih2 := ih (fun u hu => hbin u (List.mem_cons_of_mem v hu))
    rcases hv with hv | hv <;> subst hv <;>
      simp [List.count_cons] <;> omega

theorem histogram_mid_zero (l : List Nat) (hbin : ∀ v ∈ l, v = 0 ∨ v = 255)
    (i : Nat) (h1 : 1 ≤ i) (h2 : i ≤ 254) : histogram l i = 0 := by
  unfold histogram
  rw [List.count_eq_zero]
  intro hmem
  rcases hbin i hmem with h | h <;> omega

set_option maxRecDepth 10000 in
theorem range_256_split : List.range 256 = 0 :: (List.range' 1 254 ++ [255]) := by decide

theorem foldl_otsuStep_broken (data : List Nat) (total sum : Nat) (s : OtsuState)
    (hb : s.broken = true) (is : List Nat) :
    is.foldl (otsuStep data total sum) s = s := by
  induction is with
  | nil => rfl
  | cons i rest ih =>
    rw [List.foldl_cons]
    have hstep : otsuStep data total sum s i = s := by
      unfold otsuStep
      rw [if_pos hb]
    rw [hstep]
    exact ih

theorem foldl_otsuStep_wB_zero (data : List Nat) (total sum : Nat) (s : OtsuState)
    (hbr : s.broken = false) (hw : s.wB = 0) (is : List Nat)
    (hh : ∀ i ∈ is, histogram data i = 0) :
    is.foldl (otsuStep data total sum) s = s := by
  induction is with
  | nil => rfl
  | cons i rest ih =>
    rw [List.foldl_cons]
    have hstep : otsuStep data total sum s i = s := by
      unfold otsuStep
      rw [if_neg (by simp [hbr]), hh i (List.mem_cons_self i rest)]
      rw [if_pos (by omega)]
      obtain ⟨sumB, wB, mv, th, br⟩ := s
      simp only at hw hbr
      subst hw
      subst hbr
      rfl
    rw [hstep]
    exact ih (fun j hj => hh j (List.mem_cons_of_mem i hj))

theorem foldl_otsuStep_stable (data : List Nat) (total sum : Nat) (s : OtsuState)
    (hbr : s.broken = false) (hw : s.wB ≠ 0) (hf : total - s.wB ≠ 0)
    (hmv : s.maxVariance = otsuVariance total sum s.wB s.sumB) (is : List Nat)
    (hh : ∀ i ∈ is, histogram data i = 0) :
    is.foldl (otsuStep data total sum) s = s := by
  induction is with
  | nil => rfl
  | cons i rest ih =>
    rw [List.foldl_cons]
    have hstep : otsuStep data total sum s i = s := by
      unfold otsuStep
      rw [if_neg (by simp [hbr]), hh i (List.mem_cons_self i rest)]
      simp only [Nat.add_zero, Nat.mul_zero]
      rw [if_neg hw, if_neg hf, if_neg (by rw [hmv]; exact lt_irrefl _)]
      obtain ⟨sumB, wB, mv, th, br⟩ := s
      simp only at hbr
      subst hbr
      rfl
    rw [hstep]
    exact ih (fun j hj => hh j (List.mem_cons_of_mem i hj))

theorem foldl_addhist_zero (l : List Nat) (is : List Nat)
    (hh : ∀ i ∈ is, histogram l i = 0) :
    ∀ a, is.foldl (fun a i => a + i * histogram l i) a = a := by
  induction is with
  | nil => intro a; rfl
  | cons i rest ih =>
    intro a
    rw [List.foldl_cons, hh i (List.mem_cons_self i rest)]
    rw [Nat.mul_zero, Nat.add_zero]
    exact ih (fun j hj => hh j (List.mem_cons_of_mem i hj)) a

theorem mid_histogram_zero (l : List Nat) (hbin : ∀ v ∈ l, v = 0 ∨ v = 255) :
    ∀ i ∈ List.range' 1 254, histogram l i = 0 := by
  intro i hi
  have := List.mem_range'_1.mp hi
  exact histogram_mid_zero l hbin i (by omega) (by omega)

theorem otsuSum_binary (l : List Nat) (hbin : ∀ v ∈ l, v = 0 ∨ v = 255) :
    otsuSum l = 255 * l.count 255 := by
  unfold otsuSum
  rw [range_256_split, List.foldl_cons, List.foldl_append]
  have h0 : (0 : Nat) + 0 * histogram l 0 = 0 := by omega
  rw [h0, foldl_addhist_zero l (List.range' 1 254) (mid_histogram_zero l hbin) 0]
  show (0 : Nat) + 255 * histogram l 255 = 255 * l.count 255
  unfold histogram
  omega

theorem otsuVariance_first (img : GrayImage)
    (hbin : ∀ v ∈ img.data, v = 0 ∨ v = 255)
    (hc255 : img.data.count 255 ≠ 0) :
    otsuVariance img.data.length (otsuSum img.data) (img.data.count 0) 0 =
      (img.data.count 0 : ℚ) * (img.data.count 255 : ℚ) * 65025 := by
  have hcounts := count_zero_add_count_255 img.data hbin
  have hsub : img.data.length - img.data.count 0 = img.data.count 255 := by omega
  have hc255Q : (0 : ℚ) < (img.data.count 255 : ℚ) := by
    exact_mod_cast Nat.pos_of_ne_zero hc255
  unfold otsuVariance
  rw [hsub, otsuSum_binary img.data hbin]
  push_cast
  rw [zero_div, sub_zero, mul_div_assoc, div_self (ne_of_gt hc255Q), mul_one]
  norm_num

theorem calculateOtsuThreshold_binary (img : GrayImage)
    (hbin : ∀ v ∈ img.data, v = 0 ∨ v = 255) : calculateOtsuThreshold img = 0 := by
  unfold calculateOtsuThreshold
  have hcounts := count_zero_add_count_255 img.data hbin
  have hmid := mid_histogram_zero img.data hbin
  have hist0 : histogram img.data 0 = img.data.count 0 := rfl
  have hist255 : histogram img.data 255 = img.data.count 255 := rfl
  rw [range_256_split, List.foldl_cons, List.foldl_append]
  by_cases hc0 : img.data.count 0 = 0
  · have hcond1 : (⟨0, 0, 0, 0, false⟩ : OtsuState).wB + histogram img.data 0 = 0 := by
      rw [hist0]
      show 0 + img.data.count 0 = 0
      omega
    have hs1 : otsuStep img.data img.data.length (otsuSum img.data) ⟨0, 0, 0, 0, false⟩ 0 =
        ⟨0, 0, 0, 0, false⟩ := by
      unfold otsuStep
      rw [if_neg (by simp), if_pos hcond1]
      show (⟨0, 0 + histogram img.data 0, 0, 0, false⟩ : OtsuState) = ⟨0, 0, 0, 0, false⟩
      rw [hist0, hc0]
    rw [hs1, foldl_otsuStep_wB_zero img.data img.data.length (otsuSum img.data)
      ⟨0, 0, 0, 0, false⟩ rfl rfl (List.range' 1 254) hmid]
    show (otsuStep img.data img.data.length (otsuSum img.data)
      ⟨0, 0, 0, 0, false⟩ 255).threshold = 0
    by_cases hc255 : img.data.count 255 = 0
    · have hcond2 : (⟨0, 0, 0, 0, false⟩ : OtsuState).wB + histogram img.data 255 = 0 := by
        rw [hist255]
        show 0 + img.data.count 255 = 0
        omega
      unfold otsuStep
      rw [if_neg (by simp), if_pos hcond2]
    · have hcond2 : ¬ ((⟨0, 0, 0, 0, false⟩ : OtsuState).wB + histogram img.data 255 = 0) := by
        rw [hist255]
        show ¬ (0 + img.data.count 255 = 0)
        omega
      have hcond3 : img.data.length -
          ((⟨0, 0, 0, 0, false⟩ : OtsuState).wB + histogram img.data 255) = 0 := by
        rw [hist255]
        show img.data.length - (0 + img.data.count 255) = 0
        omega
      unfold otsuStep
      rw [if_neg (by simp), if_neg hcond2, if_pos hcond3]
  · by_cases hc255 : img.data.count 255 = 0
    · have hcond1 : ¬ ((⟨0, 0, 0, 0, false⟩ : OtsuState).wB + histogram img.data 0 = 0) := by
        rw [hist0]
        show ¬ (0 + img.data.count 0 = 0)
        omega
      have hcond2 : img.data.length -
          ((⟨0, 0, 0, 0, false⟩ : OtsuState).wB + histogram img.data 0) = 0 := by
        rw [hist0]
        show img.data.length - (0 + img.data.count 0) = 0
        omega
      have hs1 : otsuStep img.data img.data.length (otsuSum img.data) ⟨0, 0, 0, 0, false⟩ 0 =
          ⟨0, 0 + histogram img.data 0, 0, 0, true⟩ := by
        unfold otsuStep
        rw [if_neg (by simp), if_neg hcond1, if_pos hcond2]
      rw [hs1, foldl_otsuStep_broken img.data img.data.length (otsuSum img.data)
        ⟨0, 0 + histogram img.data 0, 0, 0, true⟩ rfl (List.range' 1 254)]
      show (otsuStep img.data img.data.length (otsuSum img.data)
        ⟨0, 0 + histogram img.data 0, 0, 0, true⟩ 255).threshold = 0
      unfold otsuStep
      rw [if_pos rfl]
    · have hvpos : (⟨0, 0, 0, 0, false⟩ : OtsuState).maxVariance <
          otsuVariance img.data.length (otsuSum img.data)
            ((⟨0, 0, 0, 0, false⟩ : OtsuState).wB + histogram img.data 0)
            ((⟨0, 0, 0, 0, false⟩ : OtsuState).sumB + 0 * histogram img.data 0) := by
        show (0 : ℚ) < otsuVariance img.data.length (otsuSum img.data)
          (0 + histogram img.data 0) (0 + 0 * histogram img.data 0)
        rw [hist0]
        have e1 : 0 + img.data.count 0 = img.data.count 0 := by omega
        have e2 : 0 + 0 * img.data.count 0 = 0 := by omega
        rw [e1, e2, otsuVariance_first img hbin hc255]
        have h1 : (0 : ℚ) < (img.data.count 0 : ℚ) := by
          exact_mod_cast Nat.pos_of_ne_zero hc0
        have h2 : (0 : ℚ) < (img.data.count 255 : ℚ) := by
          exact_mod_cast Nat.pos_of_ne_zero hc255
        have h3 : (0 : ℚ) < (65025 : ℚ) := by norm_num
        exact mul_pos (mul_pos h1 h2) h3
      have hcond1 : ¬ ((⟨0, 0, 0, 0, false⟩ : OtsuState).wB + histogram img.data 0 = 0) := by
        rw [hist0]
        show ¬ (0 + img.data.count 0 = 0)
        omega
      have hcond2 : ¬ (img.data.length -
          ((⟨0, 0, 0, 0, false⟩ : OtsuState).wB + histogram img.data 0) = 0) := by
        rw [hist0]
        show ¬ (img.data.length - (0 + img.data.count 0) = 0)
        omega
      have hs1 : otsuStep img.data img.data.length (otsuSum img.data) ⟨0, 0, 0, 0, false⟩ 0 =
          ⟨0, img.data.count 0,
            otsuVariance img.data.length (otsuSum img.data) (img.data.count 0) 0, 0, false⟩ := by
        unfold otsuStep
        rw [if_neg (by simp), if_neg hcond1, if_neg hcond2, if_pos hvpos]
        show (⟨0 + 0 * histogram img.data 0, 0 + histogram img.data 0,
          otsuVariance img.data.length (otsuSum img.data)
            (0 + histogram img.data 0) (0 + 0 * histogram img.data 0), 0, false⟩ : OtsuState) = _
        rw [hist0]
        have e1 : 0 + img.data.count 0 = img.data.count 0 := by omega
        have e2 : 0 + 0 * img.data.count 0 = 0 := by omega
        rw [e1, e2]
      have hwne : (⟨0, img.data.count 0,
          otsuVariance img.data.length (otsuSum img.data) (img.data.count 0) 0, 0,
          false⟩ : OtsuState).wB ≠ 0 := by
        show img.data.count 0 ≠ 0
        exact hc0
      have hfne : img.data.length - (⟨0, img.data.count 0,
          otsuVariance img.data.length (otsuSum img.data) (img.data.count 0) 0, 0,
          false⟩ : OtsuState).wB ≠ 0 := by
        show img.data.length - img.data.count 0 ≠ 0
        omega
      rw [hs1, foldl_otsuStep_stable img.data img.data.length (otsuSum img.data)
        ⟨0, img.data.count 0,
          otsuVariance img.data.length (otsuSum img.data) (img.data.count 0) 0, 0, false⟩
        rfl hwne hfne rfl (List.range' 1 254) hmid]
      show (otsuStep img.data img.data.length (otsuSum img.data)
        ⟨0, img.data.count 0,
          otsuVariance img.data.length (otsuSum img.data) (img.data.count 0) 0, 0, false⟩
        255).threshold = 0
      have hcond3 : ¬ ((⟨0, img.data.count 0,
          otsuVariance img.data.length (otsuSum img.data) (img.data.count 0) 0, 0,
          false⟩ : OtsuState).wB + histogram img.data 255 = 0) := by
        rw [hist255]
        show ¬ (img.data.count 0 + img.data.count 255 = 0)
        omega
      have hcond4 : img.data.length - ((⟨0, img.data.count 0,
          otsuVariance img.data.length (otsuSum img.data) (img.data.count 0) 0, 0,
          false⟩ : OtsuState).wB + histogram img.data 255) = 0 := by
        rw [hist255]
        show img.data.length - (img.data.count 0 + img.data.count 255) = 0
        omega
      unfold otsuStep
      rw [if_neg (by simp), if_neg hcond3, if_pos hcond4]

theorem binarizeImage_data_binary (img : GrayImage) (t : Nat) :
    ∀ v ∈ (binarizeImage img t).data, v = 0 ∨ v = 255 := by
  intro v hv
  simp only [binarizeImage, List.mem_map] at hv
  obtain ⟨u, _, hu⟩ := hv
  by_cases h : t < u
  · right; rw [← hu]; simp [h]
  · left; rw [← hu]; simp [h]

theorem map_binarize_id (l : List Nat) (hbin : ∀ v ∈ l, v = 0 ∨ v = 255) :
    l.map (fun v => if 0 < v then 255 else 0) = l := by
  induction l with
  | nil => rfl
  | cons v rest ih =>
    rw [List.map_cons, ih (fun u hu => hbin u (List.mem_cons_of_mem v hu))]
    rcases hbin v (List.mem_cons_self v rest) with hv | hv <;> subst hv <;> simp

/-- Helper: re-running the Otsu binarizer on a strictly binary image returns
the image unchanged (the Otsu scan returns threshold 0 there). -/
theorem binarize_otsu_id (img : GrayImage)
    (hbin : ∀ v ∈ img.data, v = 0 ∨ v = 255) :
    binarizeImage img (calculateOtsuThreshold img) = img := by
  rw [calculateOtsuThreshold_binary img hbin]
  obtain ⟨data, w, h⟩ := img
  unfold binarizeImage
  simp only
  rw [map_binarize_id data hbin]

/-- C8 amended: with the Denoiser dropped, the Binarizer alone is idempotent:
for every input, re-running Otsu threshold plus binarize on the binarized
output returns it unchanged.  With simpleGaussianBlur in the pair the claimed
idempotence fails, see the counterexample. -/
theorem binarizer_alone_idempotent (img : GrayImage) :
    binarizeImage (binarizeImage img (calculateOtsuThreshold img))
        (calculateOtsuThreshold (binarizeImage img (calculateOtsuThreshold img))) =
      binarizeImage img (calculateOtsuThreshold img) :=
  binarize_otsu_id _ (binarizeImage_data_binary img _)

/-! ### C1: Tile Normalizer shape and range -/

theorem advPadded_data_binary (roi : GrayImage) :
    ∀ v ∈ (advPadded roi).data, v = 0 ∨ v = 255 := by
  intro v hv
  unfold advPadded at hv
  obtain ⟨x, y, _, _, hval⟩ := mem_buildImage_data hv
  rw [hval]
  split
  · rcases getD_mem_or (advDilated roi).data
        ((y - advPad roi) * (advDilated roi).width + (x - advPad roi)) 0 with h | h
    · exact dilateBinary_data_binary _ 2 (advBinary_data_binary roi) _ h
    · left; exact h
  · left; rfl

theorem advScaled_data_binary (roi : GrayImage) :
    ∀ v ∈ (advScaled roi).data, v = 0 ∨ v = 255 := by
  intro v hv
  unfold advScaled nearestScale at hv
  obtain ⟨x, y, _, _, hval⟩ := mem_buildImage_data hv
  rw [hval]
  rcases getD_mem_or (advPadded roi).data
      ((y * (advPadded roi).height / 28) * (advPadded roi).width +
        (x * (advPadded roi).width / 28)) 0 with h | h
  · exact advPadded_data_binary roi _ h
  · left; exact h

theorem advCorrected_data_binary (roi : GrayImage) :
    ∀ v ∈ (advCorrected roi).data, v = 0 ∨ v = 255 := by
  intro v hv
  unfold advCorrected at hv
  split at hv
  · obtain ⟨x, y, _, _, hval⟩ := mem_buildImage_data hv
    rw [hval]
    unfold advShiftPixel
    split
    · rcases getD_mem_or (advScaled roi).data _ 0 with h | h
      · exact advScaled_data_binary roi _ h
      · left; exact h
    · left; rfl
  · exact advScaled_data_binary roi v hv

theorem advCorrected_data_length (roi : GrayImage) :
    (advCorrected roi).data.length = 784 := by
  unfold advCorrected
  split
  · rw [buildImage_data_length]
  · unfold advScaled nearestScale
    rw [buildImage_data_length]

theorem pythonStyleSquare_data_le (roi : GrayImage) (hb : ∀ u ∈ roi.data, u ≤ 255) :
    ∀ v ∈ (pythonStyleSquare roi).data, v ≤ 255 := by
  intro v hv
  unfold pythonStyleSquare at hv
  obtain ⟨x, y, _, _, hval⟩ := mem_buildImage_data hv
  rw [hval]
  split
  · rcases getD_mem_or roi.data _ 0 with h | h
    · exact hb _ h
    · rw [h]; omega
  · omega

theorem mnist_standardize_bounds (u : Nat) (hu : u ≤ 255) :
    -(1307/3081 : ℚ) ≤ ((u : ℚ)/255 - 1307/10000) / (3081/10000) ∧
    ((u : ℚ)/255 - 1307/10000) / (3081/10000) ≤ 8693/3081 := by
  have h0 : (0 : ℚ) ≤ (u : ℚ)/255 := by positivity
  have h1 : (u : ℚ)/255 ≤ 1 := by
    rw [div_le_one (by norm_num : (0 : ℚ) < 255)]
    exact_mod_cast hu
  constructor
  · rw [le_div_iff (by norm_num : (0 : ℚ) < 3081/10000)]
    linarith
  · rw [div_le_iff (by norm_num : (0 : ℚ) < 3081/10000)]
    linarith

/-- C1 amended: both Tile Normalizers always return exactly 784 values.  On the
handwriting path (advancedPreprocess) every value lies in the interval [0,1].
On the realtime camera path (pythonStylePreprocess) the final step applies the
MNIST standardization (v/255 - 0.1307)/0.3081, so for byte-valued ROIs the
values lie in [-1307/3081, 8693/3081], not in [0,1]. -/
theorem tile_normalizer_shape_and_range :
    (∀ roi : GrayImage, (advancedPreprocess roi).length = 784 ∧
        ∀ v ∈ advancedPreprocess roi, 0 ≤ v ∧ v ≤ 1)
  ∧ (∀ roi : GrayImage, (pythonStylePreprocess roi).length = 784 ∧
        ((∀ u ∈ roi.data, u ≤ 255) →
          ∀ v ∈ pythonStylePreprocess roi, -(1307/3081 : ℚ) ≤ v ∧ v ≤ 8693/3081)) := by
  constructor
  · intro roi
    constructor
    · unfold advancedPreprocess
      rw [List.length_map]
      exact advCorrected_data_length roi
    · intro v hv
      unfold advancedPreprocess at hv
      obtain ⟨u, hu, huv⟩ := List.mem_map.mp hv
      rcases advCorrected_data_binary roi u hu with h | h <;> subst h <;> rw [← huv] <;>
        norm_num
  · intro roi
    constructor
    · unfold pythonStylePreprocess nearestScale
      rw [List.length_map, buildImage_data_length]
    · intro hb v hv
      unfold pythonStylePreprocess at hv
      obtain ⟨u, hu, huv⟩ := List.mem_map.mp hv
      have hu255 : u ≤ 255 := by
        unfold nearestScale at hu
        obtain ⟨x, y, _, _, hval⟩ := mem_buildImage_data hu
        rw [hval]
        rcases getD_mem_or (pythonStyleSquare roi).data _ 0 with h | h
        · exact pythonStyleSquare_data_le roi hb _ h
        · rw [h]; omega
      rw [← huv]
      exact mnist_standardize_bounds u hu255

/-- Witness for C1 at concrete one-pixel ROIs. -/
theorem tile_normalizer_shape_and_range_witness :
    (advancedPreprocess ⟨[255], 1, 1⟩).length = 784 ∧
    ((∀ u ∈ ([0] : List Nat), u ≤ 255) ∧
      ∀ v ∈ pythonStylePreprocess ⟨[0], 1, 1⟩,
        -(1307/3081 : ℚ) ≤ v ∧ v ≤ 8693/3081) :=
  ⟨(tile_normalizer_shape_and_range.1 ⟨[255], 1, 1⟩).1,
    ⟨by decide, (tile_normalizer_shape_and_range.2 ⟨[0], 1, 1⟩).2 (by decide)⟩⟩

set_option maxRecDepth 100000 in
/-- C1 counterexample: on the realtime path the tile of an all-black 1x1 ROI
holds the value (0/255 - 0.1307)/0.3081 < 0, so not every tile value lies in
the interval [0,1]. -/
theorem pythonStyle_value_below_zero :
    (pythonStylePreprocess ⟨[0], 1, 1⟩).getD 0 0 < 0 ∧
    0 < (pythonStylePreprocess ⟨[0], 1, 1⟩).length := by
  constructor <;> decide

set_option maxRecDepth 200000 in
set_option maxHeartbeats 4000000 in
/-- C8 counterexample: the 5x5 single-bright-pixel image is strictly binary,
yet running the Denoiser plus Binarizer pair twice yields a different mask than
running it once (once gives a 5-pixel plus shape, twice a 9-pixel square). -/
theorem denoise_binarize_pair_not_idempotent :
    (∀ v ∈ singlePixelImage.data, v = 0 ∨ v = 255) ∧
    denoiseBinarize (denoiseBinarize singlePixelImage) ≠ denoiseBinarize singlePixelImage := by
  have h1 : denoiseBinarize singlePixelImage =
      ⟨[0, 0, 0, 0, 0, 0, 0, 255, 0, 0, 0, 255, 255, 255, 0, 0, 0, 255, 0, 0, 0, 0, 0, 0, 0],
        5, 5⟩ := by decide
  have h2 : denoiseBinarize
      ⟨[0, 0, 0, 0, 0, 0, 0, 255, 0, 0, 0, 255, 255, 255, 0, 0, 0, 255, 0, 0, 0, 0, 0, 0, 0],
        5, 5⟩ =
      ⟨[0, 0, 0, 0, 0, 0, 255, 255, 255, 0, 0, 255, 255, 255, 0, 0, 255, 255, 255, 0,
        0, 0, 0, 0, 0], 5, 5⟩ := by decide
  constructor
  · decide
  · rw [h1, h2]
    decide

set_option maxRecDepth 100000 in
/-- C4 counterexample: findComponents uses 4-neighbor adjacency and drops
filtered components, so on the diagonal frame the foreground pixel (0,0) with
value 255 belongs to no returned component at all. -/
theorem findComponents_drops_foreground :
    diagRgba.data.getD 0 0 = 255 ∧ findComponents diagRgba false = [] := by
  constructor
  · rfl
  · decide

theorem pidx_lt (w h : Nat) (p : Nat × Nat) (h1 : p.1 < w) (h2 : p.2 < h) :
    pidx w p < w * h := by
  unfold pidx
  calc p.2 * w + p.1 < p.2 * w + w := by omega
  _ = (p.2 + 1) * w := by ring
  _ ≤ h * w := Nat.mul_le_mul_right w (by omega)
  _ = w * h := Nat.mul_comm h w

theorem pidx_inj (w : Nat) (p q : Nat × Nat) (h1 : p.1 < w) (h2 : q.1 < w)
    (he : pidx w p = pidx w q) : p = q := by
  have hw : 0 < w := by omega
  unfold pidx at he
  have hx : p.1 = q.1 := by
    have e1 : (p.2 * w + p.1) % w = p.1 := by
      rw [Nat.mul_comm, Nat.mul_add_mod]
      exact Nat.mod_eq_of_lt h1
    have e2 : (q.2 * w + q.1) % w = q.1 := by
      rw [Nat.mul_comm, Nat.mul_add_mod]
      exact Nat.mod_eq_of_lt h2
    rw [← e1, ← e2, he]
  have hy : p.2 = q.2 := by
    have e1 : (p.2 * w + p.1) / w = p.2 := by
      rw [Nat.mul_comm, Nat.mul_add_div hw, Nat.div_eq_of_lt h1, Nat.add_zero]
    have e2 : (q.2 * w + q.1) / w = q.2 := by
      rw [Nat.mul_comm, Nat.mul_add_div hw, Nat.div_eq_of_lt h2, Nat.add_zero]
    rw [← e1, ← e2, he]
  exact Prod.ext hx hy

theorem get?_set_true_self (l : List Bool) (i : Nat) (hi : i < l.length) :
    (l.set i true).get? i = some true := by
  induction l generalizing i with
  | nil => cases hi
  | cons b rest ih =>
    cases i with
    | zero => rfl
    | succ j =>
      simp only [List.set, List.get?]
      exact ih j (by simpa using hi)

theorem get?_set_of_ne (l : List Bool) (i j : Nat) (hne : i ≠ j) (a : Bool) :
    (l.set i a).get? j = l.get? j := by
  induction l generalizing i j with
  | nil => rfl
  | cons b rest ih =>
    cases i with
    | zero =>
      cases j with
      | zero => exact absurd rfl hne
      | succ j2 => rfl
    | succ i2 =>
      cases j with
      | zero => rfl
      | succ j2 =>
        simp only [List.set, List.get?]
        exact ih i2 j2 (by omega)

theorem get?_set_true_mono (l : List Bool) (i j : Nat)
    (hj : l.get? j = some true) : (l.set i true).get? j = some true := by
  by_cases hij : i = j
  · subst hij
    have hi : i < l.length := by
      by_contra hcon
      rw [List.get?_eq_none.mpr (by omega)] at hj
      cases hj
    exact get?_set_true_self l i hi
  · rw [get?_set_of_ne l i j hij true]
    exact hj

theorem get?_set_false_orig (l : List Bool) (i j : Nat)
    (hj : (l.set i true).get? j = some false) : l.get? j = some false := by
  by_cases hij : i = j
  · subst hij
    by_cases hi : i < l.length
    · rw [get?_set_true_self l i hi] at hj
      cases hj
    · rw [List.get?_eq_none.mpr (by simpa using by omega)] at hj
      cases hj
  · rw [get?_set_of_ne l i j hij true] at hj
    exact hj

theorem falseCount_set (l : List Bool) (i : Nat) (h : l.get? i = some false) :
    falseCount (l.set i true) + 1 = falseCount l := by
  induction l generalizing i with
  | nil => cases h
  | cons b rest ih =>
    cases i with
    | zero =>
      have hb : b = false := by
        injection h
      subst hb
      simp [falseCount, List.count_cons]
    | succ j =>
      have hrec := ih j (by simpa using h)
      simp only [List.set]
      simp only [falseCount, List.count_cons] at hrec ⊢
      omega

theorem visitNbrs_nil (w h : Nat) (fg : Nat → Nat → Bool) (cx cy : Nat)
    (v : List Bool) (q : List (Nat × Nat)) :
    visitNbrs w h fg cx cy [] v q = (v, q) := rfl

theorem visitNbrs_cons (w h : Nat) (fg : Nat → Nat → Bool) (cx cy : Nat)
    (d : Int × Int) (ds : List (Int × Int)) (v : List Bool) (q : List (Nat × Nat)) :
    visitNbrs w h fg cx cy (d :: ds) v q =
      if 0 ≤ (cx : Int) + d.1 ∧ (cx : Int) + d.1 < (w : Int) ∧
          0 ≤ (cy : Int) + d.2 ∧ (cy : Int) + d.2 < (h : Int) ∧
          fg ((cx : Int) + d.1).toNat ((cy : Int) + d.2).toNat = true ∧
          v.get? (((cy : Int) + d.2).toNat * w + ((cx : Int) + d.1).toNat) = some false then
        visitNbrs w h fg cx cy ds
          (v.set (((cy : Int) + d.2).toNat * w + ((cx : Int) + d.1).toNat) true)
          (q ++ [(((cx : Int) + d.1).toNat, ((cy : Int) + d.2).toNat)])
      else visitNbrs w h fg cx cy ds v q := rfl

theorem visitNbrs_length (w h : Nat) (fg : Nat → Nat → Bool) (cx cy : Nat) :
    ∀ (ds : List (Int × Int)) (v : List Bool) (q : List (Nat × Nat)),
      (visitNbrs w h fg cx cy ds v q).1.length = v.length := by
  intro ds
  induction ds with
  | nil => intro v q; rfl
  | cons d rest ih =>
    intro v q
    rw [visitNbrs_cons]
    split
    · rw [ih]
      exact List.length_set v _ true
    · exact ih v q

theorem visitNbrs_measure (w h : Nat) (fg : Nat → Nat → Bool) (cx cy : Nat) :
    ∀ (ds : List (Int × Int)) (v : List Bool) (q : List (Nat × Nat)),
      falseCount (visitNbrs w h fg cx cy ds v q).1 +
          (visitNbrs w h fg cx cy ds v q).2.length =
        falseCount v + q.length := by
  intro ds
  induction ds with
  | nil => intro v q; rfl
  | cons d rest ih =>
    intro v q
    rw [visitNbrs_cons]
    split
    · rename_i hg
      rw [ih]
      have hfc := falseCount_set v
        (((cy : Int) + d.2).toNat * w + ((cx : Int) + d.1).toNat) hg.2.2.2.2.2
      rw [List.length_append]
      simp only [List.length_cons, List.length_nil]
      omega
    · exact ih v q

theorem visitNbrs_mono (w h : Nat) (fg : Nat → Nat → Bool) (cx cy : Nat) :
    ∀ (ds : List (Int × Int)) (v : List Bool) (q : List (Nat × Nat)) (j : Nat),
      v.get? j = some true →
      (visitNbrs w h fg cx cy ds v q).1.get? j = some true := by
  intro ds
  induction ds with
  | nil => intro v q j hj; exact hj
  | cons d rest ih =>
    intro v q j hj
    rw [visitNbrs_cons]
    split
    · exact ih _ _ j (get?_set_true_mono v _ j hj)
    · exact ih v q j hj

theorem visitNbrs_queue_prefix (w h : Nat) (fg : Nat → Nat → Bool) (cx cy : Nat) :
    ∀ (ds : List (Int × Int)) (v : List Bool) (q : List (Nat × Nat)),
      ∃ new, (visitNbrs w h fg cx cy ds v q).2 = q ++ new := by
  intro ds
  induction ds with
  | nil => intro v q; exact ⟨[], (List.append_nil q).symm⟩
  | cons d rest ih =>
    intro v q
    rw [visitNbrs_cons]
    split
    · obtain ⟨new, hnew⟩ := ih
        (v.set (((cy : Int) + d.2).toNat * w + ((cx : Int) + d.1).toNat) true)
        (q ++ [(((cx : Int) + d.1).toNat, ((cy : Int) + d.2).toNat)])
      exact ⟨(((cx : Int) + d.1).toNat, ((cy : Int) + d.2).toNat) :: new, by
        rw [hnew, List.append_assoc]
        rfl⟩
    · exact ih v q

theorem visitNbrs_marks (w h : Nat) (fg : Nat → Nat → Bool) (cx cy : Nat) :
    ∀ (ds : List (Int × Int)) (v : List Bool) (q : List (Nat × Nat)) (j : Nat),
      (visitNbrs w h fg cx cy ds v q).1.get? j = some true →
      v.get? j = some true ∨
        ∃ p ∈ (visitNbrs w h fg cx cy ds v q).2, pidx w p = j ∧ v.get? j = some false := by
  intro ds
  induction ds with
  | nil => intro v q j hj; left; exact hj
  | cons d rest ih =>
    intro v q j hj
    rw [visitNbrs_cons] at hj ⊢
    by_cases hg : 0 ≤ (cx : Int) + d.1 ∧ (cx : Int) + d.1 < (w : Int) ∧
        0 ≤ (cy : Int) + d.2 ∧ (cy : Int) + d.2 < (h : Int) ∧
        fg ((cx : Int) + d.1).toNat ((cy : Int) + d.2).toNat = true ∧
        v.get? (((cy : Int) + d.2).toNat * w + ((cx : Int) + d.1).toNat) = some false
    · rw [if_pos hg] at hj ⊢
      rcases ih _ _ j hj with hold | ⟨p, hp, hpj, hpf⟩
      · by_cases hij : (((cy : Int) + d.2).toNat * w + ((cx : Int) + d.1).toNat) = j
        · right
          subst hij
          refine ⟨(((cx : Int) + d.1).toNat, ((cy : Int) + d.2).toNat), ?_, rfl, hg.2.2.2.2.2⟩
          obtain ⟨new, hnew⟩ := visitNbrs_queue_prefix w h fg cx cy rest _ _
          rw [hnew]
          refine List.mem_append.mpr (Or.inl ?_)
          exact List.mem_append.mpr (Or.inr (List.mem_singleton.mpr rfl))
        · left
          rw [get?_set_of_ne v _ j hij true] at hold
          exact hold
      · right
        exact ⟨p, hp, hpj, get?_set_false_orig v _ j hpf⟩
    · rw [if_neg hg] at hj ⊢
      exact ih v q j hj

theorem visitNbrs_queue_new (w h : Nat) (fg : Nat → Nat → Bool) (cx cy : Nat) :
    ∀ (ds : List (Int × Int)) (v : List Bool) (q : List (Nat × Nat)),
      ∃ new, (visitNbrs w h fg cx cy ds v q).2 = q ++ new ∧
        ∀ p ∈ new, (p.1 < w ∧ p.2 < h ∧ fg p.1 p.2 = true) ∧
          (visitNbrs w h fg cx cy ds v q).1.get? (pidx w p) = some true ∧
          v.get? (pidx w p) = some false := by
  intro ds
  induction ds with
  | nil =>
    intro v q
    exact ⟨[], (List.append_nil q).symm, fun p hp => absurd hp (List.not_mem_nil p)⟩
  | cons d rest ih =>
    intro v q
    rw [visitNbrs_cons]
    by_cases hg : 0 ≤ (cx : Int) + d.1 ∧ (cx : Int) + d.1 < (w : Int) ∧
        0 ≤ (cy : Int) + d.2 ∧ (cy : Int) + d.2 < (h : Int) ∧
        fg ((cx : Int) + d.1).toNat ((cy : Int) + d.2).toNat = true ∧
        v.get? (((cy : Int) + d.2).toNat * w + ((cx : Int) + d.1).toNat) = some false
    · rw [if_pos hg]
      obtain ⟨new, hnew, hprops⟩ := ih
        (v.set (((cy : Int) + d.2).toNat * w + ((cx : Int) + d.1).toNat) true)
        (q ++ [(((cx : Int) + d.1).toNat, ((cy : Int) + d.2).toNat)])
      refine ⟨(((cx : Int) + d.1).toNat, ((cy : Int) + d.2).toNat) :: new, ?_, ?_⟩
      · rw [hnew, List.append_assoc]
        rfl
      · intro p hp
        rcases List.mem_cons.mp hp with heq | hmem
        · subst heq
          have hidx : pidx w (((cx : Int) + d.1).toNat, ((cy : Int) + d.2).toNat) =
              ((cy : Int) + d.2).toNat * w + ((cx : Int) + d.1).toNat := rfl
          have hlt : ((cy : Int) + d.2).toNat * w + ((cx : Int) + d.1).toNat < v.length := by
            by_contra hcon
            rw [List.get?_eq_none.mpr (by omega)] at hg
            exact absurd hg.2.2.2.2.2 (by simp)
          refine ⟨⟨?_, ?_, hg.2.2.2.2.1⟩, ?_, ?_⟩
          · show ((cx : Int) + d.1).toNat < w
            have := hg.1
            have := hg.2.1
            omega
          · show ((cy : Int) + d.2).toNat < h
            have := hg.2.2.1
            have := hg.2.2.2.1
            omega
          · rw [hidx]
            exact visitNbrs_mono w h fg cx cy rest _ _ _
              (get?_set_true_self v _ hlt)
          · rw [hidx]
            exact hg.2.2.2.2.2
        · obtain ⟨hbounds, hmark, hfalse⟩ := hprops p hmem
          exact ⟨hbounds, hmark, get?_set_false_orig v _ _ hfalse⟩
    · rw [if_neg hg]
      exact ih v q

theorem visitNbrs_complete (w h : Nat) (fg : Nat → Nat → Bool) (cx cy : Nat) :
    ∀ (ds : List (Int × Int)) (v : List Bool) (q : List (Nat × Nat)),
      v.length = w * h → ∀ d ∈ ds,
      0 ≤ (cx : Int) + d.1 → (cx : Int) + d.1 < (w : Int) →
      0 ≤ (cy : Int) + d.2 → (cy : Int) + d.2 < (h : Int) →
      fg ((cx : Int) + d.1).toNat ((cy : Int) + d.2).toNat = true →
      (visitNbrs w h fg cx cy ds v q).1.get?
        (((cy : Int) + d.2).toNat * w + ((cx : Int) + d.1).toNat) = some true := by
  intro ds
  induction ds with
  | nil => intro v q _ d hd; cases hd
  | cons e rest ih =>
    intro v q hlen d hd h1 h2 h3 h4 h5
    rw [visitNbrs_cons]
    rcases List.mem_cons.mp hd with heq | hmem
    · subst heq
      have hltw : ((cx : Int) + d.1).toNat < w := by omega
      have hlth : ((cy : Int) + d.2).toNat < h := by omega
      have hlt : ((cy : Int) + d.2).toNat * w + ((cx : Int) + d.1).toNat < v.length := by
        rw [hlen]
        exact pidx_lt w h (((cx : Int) + d.1).toNat, ((cy : Int) + d.2).toNat) hltw hlth
      by_cases hv : v.get? (((cy : Int) + d.2).toNat * w + ((cx : Int) + d.1).toNat) = some false
      · rw [if_pos ⟨h1, h2, h3, h4, h5, hv⟩]
        exact visitNbrs_mono w h fg cx cy rest _ _ _ (get?_set_true_self v _ hlt)
      · have hvt : v.get? (((cy : Int) + d.2).toNat * w + ((cx : Int) + d.1).toNat) =
            some true := by
          cases hb : v.get? (((cy : Int) + d.2).toNat * w + ((cx : Int) + d.1).toNat) with
          | none =>
            have := List.get?_eq_none.mp hb
            omega
          | some b =>
            cases b with
            | false => exact absurd hb hv
            | true => rfl
        rw [if_neg (fun hcon => hv hcon.2.2.2.2.2)]
        exact visitNbrs_mono w h fg cx cy rest v q _ hvt
    · by_cases hg : 0 ≤ (cx : Int) + e.1 ∧ (cx : Int) + e.1 < (w : Int) ∧
          0 ≤ (cy : Int) + e.2 ∧ (cy : Int) + e.2 < (h : Int) ∧
          fg ((cx : Int) + e.1).toNat ((cy : Int) + e.2).toNat = true ∧
          v.get? (((cy : Int) + e.2).toNat * w + ((cx : Int) + e.1).toNat) = some false
      · rw [if_pos hg]
        refine ih _ _ ?_ d hmem h1 h2 h3 h4 h5
        rw [List.length_set]
        exact hlen
      · rw [if_neg hg]
        exact ih v q hlen d hmem h1 h2 h3 h4 h5

theorem visitNbrs_false_orig (w h : Nat) (fg : Nat → Nat → Bool) (cx cy : Nat) :
    ∀ (ds : List (Int × Int)) (v : List Bool) (q : List (Nat × Nat)) (j : Nat),
      (visitNbrs w h fg cx cy ds v q).1.get? j = some false →
      v.get? j = some false := by
  intro ds
  induction ds with
  | nil => intro v q j hj; exact hj
  | cons d rest ih =>
    intro v q j hj
    rw [visitNbrs_cons] at hj
    split at hj
    · exact get?_set_false_orig v _ j (ih _ _ j hj)
    · exact ih v q j hj

theorem bfsLoop_nil (w h : Nat) (fg : Nat → Nat → Bool) (ds : List (Int × Int))
    (fuel : Nat) (v : List Bool) :
    bfsLoop w h fg ds fuel [] v = ([], v) := by
  cases fuel <;> rfl

theorem bfsLoop_cons (w h : Nat) (fg : Nat → Nat → Bool) (ds : List (Int × Int))
    (fuel : Nat) (c : Nat × Nat) (rest : List (Nat × Nat)) (v : List Bool) :
    bfsLoop w h fg ds (fuel + 1) (c :: rest) v =
      (c :: (bfsLoop w h fg ds fuel (visitNbrs w h fg c.1 c.2 ds v rest).2
          (visitNbrs w h fg c.1 c.2 ds v rest).1).1,
        (bfsLoop w h fg ds fuel (visitNbrs w h fg c.1 c.2 ds v rest).2
          (visitNbrs w h fg c.1 c.2 ds v rest).1).2) := rfl

/-- Main BFS specification: given a marked foreground queue and enough fuel,
the loop returns the queue plus freshly visited pixels, all foreground, the
final visited array marks exactly the old marks plus the returned pixels, and
the returned pixel set is closed into the final visited array along the scan
directions. -/
theorem bfsLoop_spec (w h : Nat) (fg : Nat → Nat → Bool) (ds : List (Int × Int)) :
    ∀ (fuel : Nat) (q : List (Nat × Nat)) (v : List Bool),
      v.length = w * h →
      (∀ p ∈ q, FgB w h fg p) →
      (∀ p ∈ q, v.get? (pidx w p) = some true) →
      falseCount v + q.length ≤ fuel →
      (bfsLoop w h fg ds fuel q v).2.length = v.length ∧
      (∀ j, v.get? j = some true → (bfsLoop w h fg ds fuel q v).2.get? j = some true) ∧
      (∀ p ∈ q, p ∈ (bfsLoop w h fg ds fuel q v).1) ∧
      (∀ p ∈ (bfsLoop w h fg ds fuel q v).1, FgB w h fg p) ∧
      (∀ j, (bfsLoop w h fg ds fuel q v).2.get? j = some true ↔
        (v.get? j = some true ∨ ∃ p ∈ (bfsLoop w h fg ds fuel q v).1, pidx w p = j)) ∧
      (∀ p ∈ (bfsLoop w h fg ds fuel q v).1,
        p ∈ q ∨ v.get? (pidx w p) = some false) ∧
      (∀ p ∈ (bfsLoop w h fg ds fuel q v).1, ∀ n, NbrVia ds p n → FgB w h fg n →
        (bfsLoop w h fg ds fuel q v).2.get? (pidx w n) = some true) := by
  intro fuel
  induction fuel with
  | zero =>
    intro q v hlen hqfg hqv hfuel
    cases q with
    | nil =>
      rw [bfsLoop_nil]
      refine ⟨rfl, fun j hj => hj, fun p hp => absurd hp (List.not_mem_nil p),
        fun p hp => absurd hp (List.not_mem_nil p), fun j => ⟨Or.inl, ?_⟩,
        fun p hp => absurd hp (List.not_mem_nil p),
        fun p hp => absurd hp (List.not_mem_nil p)⟩
      rintro (hj | ⟨p, hp, -⟩)
      · exact hj
      · exact absurd hp (List.not_mem_nil p)
    | cons c rest =>
      exfalso
      simp only [List.length_cons] at hfuel
      omega
  | succ fuel ih =>
    intro q v hlen hqfg hqv hfuel
    cases q with
    | nil =>
      rw [bfsLoop_nil]
      refine ⟨rfl, fun j hj => hj, fun p hp => absurd hp (List.not_mem_nil p),
        fun p hp => absurd hp (List.not_mem_nil p), fun j => ⟨Or.inl, ?_⟩,
        fun p hp => absurd hp (List.not_mem_nil p),
        fun p hp => absurd hp (List.not_mem_nil p)⟩
      rintro (hj | ⟨p, hp, -⟩)
      · exact hj
      · exact absurd hp (List.not_mem_nil p)
    | cons c rest =>
      rw [bfsLoop_cons]
      have hstep_len : (visitNbrs w h fg c.1 c.2 ds v rest).1.length = v.length :=
        visitNbrs_length w h fg c.1 c.2 ds v rest
      obtain ⟨new, hnew, hnewP⟩ := visitNbrs_queue_new w h fg c.1 c.2 ds v rest
      have hq2fg : ∀ p ∈ (visitNbrs w h fg c.1 c.2 ds v rest).2, FgB w h fg p := by
        intro p hp
        rw [hnew] at hp
        rcases List.mem_append.mp hp with h1 | h2
        · exact hqfg p (List.mem_cons_of_mem c h1)
        · exact (hnewP p h2).1
      have hq2v : ∀ p ∈ (visitNbrs w h fg c.1 c.2 ds v rest).2,
          (visitNbrs w h fg c.1 c.2 ds v rest).1.get? (pidx w p) = some true := by
        intro p hp
        rw [hnew] at hp
        rcases List.mem_append.mp hp with h1 | h2
        · exact visitNbrs_mono w h fg c.1 c.2 ds v rest (pidx w p)
            (hqv p (List.mem_cons_of_mem c h1))
        · exact (hnewP p h2).2.1
      have hmeas := visitNbrs_measure w h fg c.1 c.2 ds v rest
      have hfuel2 : falseCount (visitNbrs w h fg c.1 c.2 ds v rest).1 +
          (visitNbrs w h fg c.1 c.2 ds v rest).2.length ≤ fuel := by
        simp only [List.length_cons] at hfuel
        omega
      obtain ⟨ih1, ih2, ih3, ih4, ih5, ih6, ih7⟩ :=
        ih (visitNbrs w h fg c.1 c.2 ds v rest).2 (visitNbrs w h fg c.1 c.2 ds v rest).1
          (hstep_len.trans hlen) hq2fg hq2v hfuel2
      refine ⟨ih1.trans hstep_len, ?_, ?_, ?_, ?_, ?_, ?_⟩
      · intro j hj
        exact ih2 j (visitNbrs_mono w h fg c.1 c.2 ds v rest j hj)
      · intro p hp
        rcases List.mem_cons.mp hp with heq | hp'
        · subst heq
          exact List.mem_cons_self p _
        · refine List.mem_cons_of_mem c (ih3 p ?_)
          rw [hnew]
          exact List.mem_append.mpr (Or.inl hp')
      · intro p hp
        rcases List.mem_cons.mp hp with heq | hp'
        · subst heq
          exact hqfg p (List.mem_cons_self p rest)
        · exact ih4 p hp'
      · intro j
        constructor
        · intro hj
          rcases (ih5 j).mp hj with hs | ⟨p, hp, hpj⟩
          · rcases visitNbrs_marks w h fg c.1 c.2 ds v rest j hs with hv | ⟨p, hp2, hpj, hpf⟩
            · exact Or.inl hv
            · exact Or.inr ⟨p, List.mem_cons_of_mem c (ih3 p hp2), hpj⟩
          · exact Or.inr ⟨p, List.mem_cons_of_mem c hp, hpj⟩
        · rintro (hv | ⟨p, hp, hpj⟩)
          · exact ih2 j (visitNbrs_mono w h fg c.1 c.2 ds v rest j hv)
          · rcases List.mem_cons.mp hp with heq | hp'
            · subst heq
              rw [← hpj]
              exact ih2 (pidx w p) (visitNbrs_mono w h fg p.1 p.2 ds v rest (pidx w p)
                (hqv p (List.mem_cons_self p rest)))
            · exact (ih5 j).mpr (Or.inr ⟨p, hp', hpj⟩)
      · intro p hp
        rcases List.mem_cons.mp hp with heq | hp'
        · subst heq
          exact Or.inl (List.mem_cons_self p rest)
        · rcases ih6 p hp' with hq2 | hfresh
          · rw [hnew] at hq2
            rcases List.mem_append.mp hq2 with h1 | h2
            · exact Or.inl (List.mem_cons_of_mem c h1)
            · exact Or.inr ((hnewP p h2).2.2)
          · exact Or.inr (visitNbrs_false_orig w h fg c.1 c.2 ds v rest (pidx w p) hfresh)
      · intro p hp n hnb hnfg
        rcases List.mem_cons.mp hp with heq | hp'
        · subst heq
          obtain ⟨d, hd, hdx, hdy⟩ := hnb
          obtain ⟨hn1, hn2, hn3⟩ := hnfg
          have hx : ((p.1 : Int) + d.1).toNat = n.1 := by omega
          have hy : ((p.2 : Int) + d.2).toNat = n.2 := by omega
          have h1 : 0 ≤ (p.1 : Int) + d.1 := by omega
          have h2 : (p.1 : Int) + d.1 < (w : Int) := by omega
          have h3 : 0 ≤ (p.2 : Int) + d.2 := by omega
          have h4 : (p.2 : Int) + d.2 < (h : Int) := by omega
          have hfgn : fg ((p.1 : Int) + d.1).toNat ((p.2 : Int) + d.2).toNat = true := by
            rw [hx, hy]
            exact hn3
          have hmark := visitNbrs_complete w h fg p.1 p.2 ds v rest hlen d hd
            h1 h2 h3 h4 hfgn
          rw [hx, hy] at hmark
          exact ih2 (pidx w n) hmark
        · exact ih7 p hp' n hnb hnfg

theorem mkComponent_pixels (l : List (Nat × Nat)) : (mkComponent l).pixels = l := rfl

theorem ccLoop_nil (w h : Nat) (fg : Nat → Nat → Bool) (ds : List (Int × Int))
    (v : List Bool) : ccLoop w h fg ds [] v = ([], v) := rfl

theorem ccLoop_cons (w h : Nat) (fg : Nat → Nat → Bool) (ds : List (Int × Int))
    (i : Nat) (rest : List Nat) (v : List Bool) :
    ccLoop w h fg ds (i :: rest) v =
      if v.get? i = some false ∧ fg (i % w) (i / w) = true then
        (mkComponent (bfsLoop w h fg ds (falseCount (v.set i true) + 1)
            [(i % w, i / w)] (v.set i true)).1 ::
          (ccLoop w h fg ds rest (bfsLoop w h fg ds (falseCount (v.set i true) + 1)
            [(i % w, i / w)] (v.set i true)).2).1,
          (ccLoop w h fg ds rest (bfsLoop w h fg ds (falseCount (v.set i true) + 1)
            [(i % w, i / w)] (v.set i true)).2).2)
      else ccLoop w h fg ds rest v := rfl

/-- Main specification of the outer component scan: components consist of
foreground pixels that were unvisited on entry, the visited array ends up
marking exactly the old marks plus all component pixels, every foreground
scanned index ends up visited, distinct components have disjoint pixel sets,
and each component is closed under the scan-direction adjacency. -/
theorem ccLoop_spec (w h : Nat) (fg : Nat → Nat → Bool) (ds : List (Int × Int))
    (hsym : ∀ d ∈ ds, ((-d.1, -d.2) : Int × Int) ∈ ds) :
    ∀ (idxs : List Nat) (v : List Bool),
      v.length = w * h →
      (∀ i ∈ idxs, i < w * h) →
      (∀ p : Nat × Nat, p.1 < w → p.2 < h → v.get? (pidx w p) = some true →
        ∀ n, NbrVia ds p n → FgB w h fg n → v.get? (pidx w n) = some true) →
      (ccLoop w h fg ds idxs v).2.length = v.length ∧
      (∀ j, v.get? j = some true → (ccLoop w h fg ds idxs v).2.get? j = some true) ∧
      (∀ c ∈ (ccLoop w h fg ds idxs v).1, ∀ p ∈ c.pixels,
        FgB w h fg p ∧ v.get? (pidx w p) = some false) ∧
      (∀ j, (ccLoop w h fg ds idxs v).2.get? j = some true ↔
        (v.get? j = some true ∨
          ∃ c ∈ (ccLoop w h fg ds idxs v).1, ∃ p ∈ c.pixels, pidx w p = j)) ∧
      (∀ i ∈ idxs, fg (i % w) (i / w) = true →
        (ccLoop w h fg ds idxs v).2.get? i = some true) ∧
      List.Pairwise (fun c₁ c₂ => ∀ p ∈ c₁.pixels, p ∉ c₂.pixels)
        (ccLoop w h fg ds idxs v).1 ∧
      (∀ c ∈ (ccLoop w h fg ds idxs v).1, ∀ p ∈ c.pixels, ∀ n, NbrVia ds p n →
        FgB w h fg n → n ∈ c.pixels) := by
  intro idxs
  induction idxs with
  | nil =>
    intro v hlen hidx hclosed
    rw [ccLoop_nil]
    refine ⟨rfl, fun j hj => hj, fun c hc => absurd hc (List.not_mem_nil c),
      fun j => ⟨Or.inl, ?_⟩, fun i hi => absurd hi (List.not_mem_nil i),
      List.Pairwise.nil, fun c hc => absurd hc (List.not_mem_nil c)⟩
    rintro (hj | ⟨c, hc, -⟩)
    · exact hj
    · exact absurd hc (List.not_mem_nil c)
  | cons i rest ih =>
    intro v hlen hidx hclosed
    rw [ccLoop_cons]
    by_cases hg : v.get? i = some false ∧ fg (i % w) (i / w) = true
    · rw [if_pos hg]
      have hi_wh : i < w * h := hidx i (List.mem_cons_self i rest)
      have hw : 0 < w := by
        rcases Nat.eq_zero_or_pos w with h0 | h0
        · subst h0
          rw [Nat.zero_mul] at hi_wh
          omega
        · exact h0
      have hi_len : i < v.length := by omega
      have hseedx : i % w < w := Nat.mod_lt i hw
      have hseedy : i / w < h := by
        rw [Nat.div_lt_iff_lt_mul hw, Nat.mul_comm h w]
        exact hi_wh
      have hseed_idx : pidx w (i % w, i / w) = i := by
        show i / w * w + i % w = i
        rw [Nat.mul_comm]
        exact Nat.div_add_mod i w
      have hset_len : (v.set i true).length = v.length := List.length_set v i true
      obtain ⟨b1, b2, b3, b4, b5, b6, b7⟩ :=
        bfsLoop_spec w h fg ds (falseCount (v.set i true) + 1) [(i % w, i / w)]
          (v.set i true) (hset_len.trans hlen)
          (by
            intro p hp
            rw [List.mem_singleton] at hp
            subst hp
            exact ⟨hseedx, hseedy, hg.2⟩)
          (by
            intro p hp
            rw [List.mem_singleton] at hp
            subst hp
            rw [hseed_idx]
            exact get?_set_true_self v i hi_len)
          (by
            show falseCount (v.set i true) + 1 ≤ falseCount (v.set i true) + 1
            exact Nat.le_refl _)
      have hfresh_head : ∀ p ∈ (bfsLoop w h fg ds (falseCount (v.set i true) + 1)
          [(i % w, i / w)] (v.set i true)).1, v.get? (pidx w p) = some false := by
        intro p hp
        rcases b6 p hp with hseedm | hsf
        · rw [List.mem_singleton] at hseedm
          subst hseedm
          rw [hseed_idx]
          exact hg.1
        · exact get?_set_false_orig v i (pidx w p) hsf
      have hmark_head : ∀ p ∈ (bfsLoop w h fg ds (falseCount (v.set i true) + 1)
          [(i % w, i / w)] (v.set i true)).1,
          (bfsLoop w h fg ds (falseCount (v.set i true) + 1)
            [(i % w, i / w)] (v.set i true)).2.get? (pidx w p) = some true :=
        fun p hp => (b5 (pidx w p)).mpr (Or.inr ⟨p, hp, rfl⟩)
      have hB2_false_to_v : ∀ (p : Nat × Nat), p.1 < w → p.2 < h →
          (bfsLoop w h fg ds (falseCount (v.set i true) + 1)
            [(i % w, i / w)] (v.set i true)).2.get? (pidx w p) = some false →
          v.get? (pidx w p) = some false := by
        intro p hp1 hp2 hBf
        have hplt : pidx w p < v.length := by
          rw [hlen]
          exact pidx_lt w h p hp1 hp2
        cases hb : v.get? (pidx w p) with
        | none =>
          have := List.get?_eq_none.mp hb
          omega
        | some b =>
          cases b with
          | false => rfl
          | true =>
            have hbt := b2 (pidx w p) (get?_set_true_mono v i (pidx w p) hb)
            rw [hbt] at hBf
            exact absurd hBf (by simp)
      have hclose_head : ∀ p ∈ (bfsLoop w h fg ds (falseCount (v.set i true) + 1)
          [(i % w, i / w)] (v.set i true)).1, ∀ n, NbrVia ds p n → FgB w h fg n →
          n ∈ (bfsLoop w h fg ds (falseCount (v.set i true) + 1)
            [(i % w, i / w)] (v.set i true)).1 := by
        intro p hp n hnb hnfg
        have hmarkn := b7 p hp n hnb hnfg
        rcases (b5 (pidx w n)).mp hmarkn with hset | ⟨p', hp', hpe⟩
        · by_cases hni : pidx w n = i
          · have hne : n = (i % w, i / w) := by
              refine pidx_inj w n (i % w, i / w) hnfg.1 hseedx ?_
              rw [hni, hseed_idx]
            rw [hne]
            exact b3 (i % w, i / w) (List.mem_singleton.mpr rfl)
          · exfalso
            rw [get?_set_of_ne v i (pidx w n) (fun he => hni he.symm) true] at hset
            obtain ⟨d, hd, hdx, hdy⟩ := hnb
            have hrev : NbrVia ds n p := by
              refine ⟨(-d.1, -d.2), hsym d hd, ?_, ?_⟩
              · show (n.1 : Int) + (-d.1) = (p.1 : Int)
                omega
              · show (n.2 : Int) + (-d.2) = (p.2 : Int)
                omega
            have hpfg := b4 p hp
            have hvp := hclosed n hnfg.1 hnfg.2.1 hset p hrev hpfg
            have hvf := hfresh_head p hp
            rw [hvp] at hvf
            exact absurd hvf (by simp)
        · have hpp : p' = n := pidx_inj w p' n (b4 p' hp').1 hnfg.1 hpe
          rw [← hpp]
          exact hp'
      have hlen2 : (bfsLoop w h fg ds (falseCount (v.set i true) + 1)
          [(i % w, i / w)] (v.set i true)).2.length = w * h :=
        b1.trans (hset_len.trans hlen)
      have hclosed2 : ∀ p : Nat × Nat, p.1 < w → p.2 < h →
          (bfsLoop w h fg ds (falseCount (v.set i true) + 1)
            [(i % w, i / w)] (v.set i true)).2.get? (pidx w p) = some true →
          ∀ n, NbrVia ds p n → FgB w h fg n →
          (bfsLoop w h fg ds (falseCount (v.set i true) + 1)
            [(i % w, i / w)] (v.set i true)).2.get? (pidx w n) = some true := by
        intro p hp1 hp2 hpt n hnb hnfg
        rcases (b5 (pidx w p)).mp hpt with hset | ⟨p', hp', hpe⟩
        · by_cases hpi : pidx w p = i
          · have hpeq : p = (i % w, i / w) := by
              refine pidx_inj w p (i % w, i / w) hp1 hseedx ?_
              rw [hpi, hseed_idx]
            have hpmem : p ∈ (bfsLoop w h fg ds (falseCount (v.set i true) + 1)
                [(i % w, i / w)] (v.set i true)).1 := by
              rw [hpeq]
              exact b3 _ (List.mem_singleton.mpr rfl)
            exact b7 p hpmem n hnb hnfg
          · rw [get?_set_of_ne v i (pidx w p) (fun he => hpi he.symm) true] at hset
            have hnv := hclosed p hp1 hp2 hset n hnb hnfg
            exact b2 (pidx w n) (get?_set_true_mono v i (pidx w n) hnv)
        · have hpp : p' = p := pidx_inj w p' p (b4 p' hp').1 hp1 hpe
          exact b7 p (hpp ▸ hp') n hnb hnfg
      obtain ⟨c1, c2, c3, c4, c5, c6, c7⟩ :=
        ih (bfsLoop w h fg ds (falseCount (v.set i true) + 1)
            [(i % w, i / w)] (v.set i true)).2 hlen2
          (fun i' hi' => hidx i' (List.mem_cons_of_mem i hi')) hclosed2
      refine ⟨c1.trans (b1.trans hset_len), ?_, ?_, ?_, ?_, ?_, ?_⟩
      · intro j hj
        exact c2 j (b2 j (get?_set_true_mono v i j hj))
      · intro cc hcc p hp
        rcases List.mem_cons.mp hcc with heq | hcc'
        · subst heq
          rw [mkComponent_pixels] at hp
          exact ⟨b4 p hp, hfresh_head p hp⟩
        · have h3 := c3 cc hcc' p hp
          exact ⟨h3.1, hB2_false_to_v p h3.1.1 h3.1.2.1 h3.2⟩
      · intro j
        constructor
        · intro hj
          rcases (c4 j).mp hj with hB2 | ⟨cc, hcc, p, hp, hpj⟩
          · rcases (b5 j).mp hB2 with hset | ⟨p, hp, hpj⟩
            · by_cases hji : j = i
              · subst hji
                refine Or.inr ⟨mkComponent (bfsLoop w h fg ds
                    (falseCount (v.set j true) + 1) [(j % w, j / w)] (v.set j true)).1,
                  List.mem_cons_self _ _, (j % w, j / w), ?_, hseed_idx⟩
                rw [mkComponent_pixels]
                exact b3 _ (List.mem_singleton.mpr rfl)
              · left
                rw [get?_set_of_ne v i j (fun he => hji he.symm) true] at hset
                exact hset
            · refine Or.inr ⟨mkComponent (bfsLoop w h fg ds
                  (falseCount (v.set i true) + 1) [(i % w, i / w)] (v.set i true)).1,
                List.mem_cons_self _ _, p, ?_, hpj⟩
              rw [mkComponent_pixels]
              exact hp
          · exact Or.inr ⟨cc, List.mem_cons_of_mem _ hcc, p, hp, hpj⟩
        · rintro (hv | ⟨cc, hcc, p, hp, hpj⟩)
          · exact c2 j (b2 j (get?_set_true_mono v i j hv))
          · rcases List.mem_cons.mp hcc with heq | hcc'
            · subst heq
              rw [mkComponent_pixels] at hp
              subst hpj
              exact c2 (pidx w p) (hmark_head p hp)
            · exact (c4 j).mpr (Or.inr ⟨cc, hcc', p, hp, hpj⟩)
      · intro i' hi' hfg'
        rcases List.mem_cons.mp hi' with heq | hi''
        · subst heq
          exact c2 i' (b2 i' (get?_set_true_self v i' hi_len))
        · exact c5 i' hi'' hfg'
      · refine List.Pairwise.cons ?_ c6
        intro cc hcc p hp hpc
        rw [mkComponent_pixels] at hp
        have h1 := hmark_head p hp
        have h2 := (c3 cc hcc p hpc).2
        rw [h1] at h2
        exact absurd h2 (by simp)
      · intro cc hcc p hp n hnb hnfg
        rcases List.mem_cons.mp hcc with heq | hcc'
        · subst heq
          rw [mkComponent_pixels] at hp ⊢
          exact hclose_head p hp n hnb hnfg
        · exact c7 cc hcc' p hp n hnb hnfg
    · rw [if_neg hg]
      obtain ⟨c1, c2, c3, c4, c5, c6, c7⟩ :=
        ih v hlen (fun i' hi' => hidx i' (List.mem_cons_of_mem i hi')) hclosed
      refine ⟨c1, c2, c3, c4, ?_, c6, c7⟩
      intro i' hi' hfg'
      rcases List.mem_cons.mp hi' with heq | hi''
      · subst heq
        have hi_len : i' < v.length := by
          have := hidx i' (List.mem_cons_self i' rest)
          omega
        have hvt : v.get? i' = some true := by
          cases hb : v.get? i' with
          | none =>
            have := List.get?_eq_none.mp hb
            omega
          | some b =>
            cases b with
            | false => exact absurd ⟨hb, hfg'⟩ hg
            | true => rfl
        exact c2 i' hvt
      · exact c5 i' hi'' hfg'

theorem dirs8_sym : ∀ d ∈ dirs8, ((-d.1, -d.2) : Int × Int) ∈ dirs8 := by decide

theorem adj8_nbrVia (p q : Nat × Nat) (hadj : Adj8 p q) : NbrVia dirs8 p q := by
  obtain ⟨hne, h1, h2, h3, h4⟩ := hadj
  have hne' : ¬((q.1 : Int) - p.1 = 0 ∧ (q.2 : Int) - p.2 = 0) := by
    rintro ⟨hx, hy⟩
    exact hne (Prod.ext_iff.mpr ⟨by omega, by omega⟩)
  refine ⟨((q.1 : Int) - p.1, (q.2 : Int) - p.2), ?_, ?_, ?_⟩
  · have ha : (q.1 : Int) - p.1 = -1 ∨ (q.1 : Int) - p.1 = 0 ∨ (q.1 : Int) - p.1 = 1 := by
      omega
    have hb : (q.2 : Int) - p.2 = -1 ∨ (q.2 : Int) - p.2 = 0 ∨ (q.2 : Int) - p.2 = 1 := by
      omega
    rcases ha with ha | ha | ha <;> rcases hb with hb | hb | hb <;> rw [ha, hb] <;>
      first
        | decide
        | exact absurd ⟨ha, hb⟩ hne'
  · show (p.1 : Int) + ((q.1 : Int) - p.1) = (q.1 : Int)
    omega
  · show (p.2 : Int) + ((q.2 : Int) - p.2) = (q.2 : Int)
    omega

theorem get?_replicate_false (n j : Nat)
    (hb : (List.replicate n false).get? j = some true) : False := by
  induction n generalizing j with
  | zero => exact absurd hb (by simp)
  | succ k ih =>
    cases j with
    | zero =>
      rw [List.replicate_succ] at hb
      exact absurd hb (by simp)
    | succ m =>
      rw [List.replicate_succ] at hb
      exact ih m hb

theorem fg_fgOf (img : GrayImage) (p : Nat × Nat) (hp : Fg img p) :
    FgB img.width img.height (fgOf img) p := by
  obtain ⟨h1, h2, h3⟩ := hp
  refine ⟨h1, h2, ?_⟩
  show (img.data.getD (p.2 * img.width + p.1) 0 == 255) = true
  rw [h3]
  rfl

/-- C4: findConnectedComponents assigns each foreground pixel (in-bounds mask
value 255) to exactly one returned component, and every component is maximal
under 8-neighbor adjacency: a foreground 8-neighbor of a component pixel
belongs to the same component. -/
theorem findConnectedComponents_partition_maximal (img : GrayImage) :
    (∀ p : Nat × Nat, Fg img p →
      ∃! c, c ∈ findConnectedComponents img ∧ p ∈ c.pixels) ∧
    (∀ c ∈ findConnectedComponents img, ∀ p ∈ c.pixels, ∀ q : Nat × Nat,
      Adj8 p q → Fg img q → q ∈ c.pixels) := by
  unfold findConnectedComponents
  obtain ⟨o1, o2, o3, o4, o5, o6, o7⟩ :=
    ccLoop_spec img.width img.height (fgOf img) dirs8 dirs8_sym
      (List.range (img.height * img.width))
      (List.replicate (img.width * img.height) false)
      (List.length_replicate _ _)
      (by
        intro i hi
        rw [Nat.mul_comm img.width img.height]
        exact List.mem_range.mp hi)
      (by
        intro p _ _ hpt
        exact (get?_replicate_false _ _ hpt).elim)
  constructor
  · intro p hp
    have hfgb := fg_fgOf img p hp
    have hw : 0 < img.width := by
      have := hfgb.1
      omega
    have hpidx_mem : pidx img.width p ∈ List.range (img.height * img.width) := by
      rw [List.mem_range, Nat.mul_comm img.height img.width]
      exact pidx_lt _ _ p hfgb.1 hfgb.2.1
    have hmod : pidx img.width p % img.width = p.1 := by
      show (p.2 * img.width + p.1) % img.width = p.1
      rw [Nat.mul_comm, Nat.mul_add_mod]
      exact Nat.mod_eq_of_lt hfgb.1
    have hdiv : pidx img.width p / img.width = p.2 := by
      show (p.2 * img.width + p.1) / img.width = p.2
      rw [Nat.mul_comm, Nat.mul_add_div hw, Nat.div_eq_of_lt hfgb.1]
      rfl
    have hfg_seed : fgOf img (pidx img.width p % img.width)
        (pidx img.width p / img.width) = true := by
      rw [hmod, hdiv]
      exact hfgb.2.2
    have hcov := o5 (pidx img.width p) hpidx_mem hfg_seed
    rcases (o4 (pidx img.width p)).mp hcov with hrep | ⟨c, hc, p', hp', hpe⟩
    · exact (get?_replicate_false _ _ hrep).elim
    · have hpp : p' = p := pidx_inj _ p' p (o3 c hc p' hp').1.1 hfgb.1 hpe
      refine ⟨c, ⟨hc, hpp ▸ hp'⟩, ?_⟩
      rintro c' ⟨hc', hp'2⟩
      by_contra hne
      have hsymm : Symmetric
          (fun c₁ c₂ : Component => ∀ x ∈ c₁.pixels, x ∉ c₂.pixels) := by
        intro a b hab x hxb hxa
        exact hab x hxa hxb
      exact List.Pairwise.forall hsymm o6 hc' hc hne p hp'2 (hpp ▸ hp')
  · intro c hc p hp q hadj hq
    exact o7 c hc p hp q (adj8_nbrVia p q hadj) (fg_fgOf img q hq)

/-- C4 witness: on the single foreground pixel image the partition and
maximality statement is instantiated at the pixel (0, 0). -/
theorem findConnectedComponents_partition_maximal_witness :
    ∃! c, c ∈ findConnectedComponents ⟨[255], 1, 1⟩ ∧ (0, 0) ∈ c.pixels :=
  (findConnectedComponents_partition_maximal ⟨[255], 1, 1⟩).1 (0, 0)
    ⟨Nat.zero_lt_one, Nat.zero_lt_one, rfl⟩

theorem histogram_bimodal (i : Nat) :
    histogram bimodalImage.data i =
      (if 50 = i then 500 else 0) + (if 200 = i then 500 else 0) := by
  show List.count i (List.replicate 500 50 ++ List.replicate 500 200) = _
  rw [List.count_append, List.count_replicate, List.count_replicate]
  simp only [beq_iff_eq]

set_option maxRecDepth 10000 in
theorem range_256_split5 :
    List.range 256 =
      List.range' 0 50 ++ ([50] ++ (List.range' 51 149 ++
        ([200] ++ List.range' 201 55))) := by decide

theorem calculateOtsuThreshold_bimodal : calculateOtsuThreshold bimodalImage = 50 := by
  have hz1 : ∀ i ∈ List.range' 0 50, histogram bimodalImage.data i = 0 := by
    intro i hi
    rw [List.mem_range'_1] at hi
    rw [histogram_bimodal, if_neg (by omega), if_neg (by omega)]
  have hz2 : ∀ i ∈ List.range' 51 149, histogram bimodalImage.data i = 0 := by
    intro i hi
    rw [List.mem_range'_1] at hi
    rw [histogram_bimodal, if_neg (by omega), if_neg (by omega)]
  have hz3 : ∀ i ∈ List.range' 201 55, histogram bimodalImage.data i = 0 := by
    intro i hi
    rw [List.mem_range'_1] at hi
    rw [histogram_bimodal, if_neg (by omega), if_neg (by omega)]
  have h50 : histogram bimodalImage.data 50 = 500 := by
    rw [histogram_bimodal]
    decide
  have h200 : histogram bimodalImage.data 200 = 500 := by
    rw [histogram_bimodal]
    decide
  have hlen : bimodalImage.data.length = 1000 := by
    show (List.replicate 500 50 ++ List.replicate 500 200).length = 1000
    rw [List.length_append, List.length_replicate, List.length_replicate]
  have hsum : otsuSum bimodalImage.data = 125000 := by
    unfold otsuSum
    rw [range_256_split5]
    rw [List.foldl_append]
    rw [foldl_addhist_zero bimodalImage.data (List.range' 0 50) hz1]
    rw [List.foldl_append]
    simp only [List.foldl_cons, List.foldl_nil]
    rw [h50]
    rw [List.foldl_append]
    rw [foldl_addhist_zero bimodalImage.data (List.range' 51 149) hz2]
    rw [List.foldl_append]
    simp only [List.foldl_cons, List.foldl_nil]
    rw [h200]
    rw [foldl_addhist_zero bimodalImage.data (List.range' 201 55) hz3]
  have hs50 : otsuStep bimodalImage.data 1000 125000 ⟨0, 0, 0, 0, false⟩ 50 =
      ⟨25000, 500, 5625000000, 50, false⟩ := by
    unfold otsuStep
    rw [h50]
    decide
  have hs200 : otsuStep bimodalImage.data 1000 125000
      ⟨25000, 500, 5625000000, 50, false⟩ 200 =
      ⟨25000, 1000, 5625000000, 50, true⟩ := by
    unfold otsuStep
    rw [h200]
    decide
  have h_fold : (List.range 256).foldl (otsuStep bimodalImage.data
      bimodalImage.data.length (otsuSum bimodalImage.data)) ⟨0, 0, 0, 0, false⟩ =
      (⟨25000, 1000, 5625000000, 50, true⟩ : OtsuState) := by
    simp only [hsum, hlen, range_256_split5, List.foldl_append, List.foldl_cons,
      List.foldl_nil,
      foldl_otsuStep_wB_zero bimodalImage.data 1000 125000 ⟨0, 0, 0, 0, false⟩
        rfl rfl (List.range' 0 50) hz1,
      hs50,
      foldl_otsuStep_stable bimodalImage.data 1000 125000
        ⟨25000, 500, 5625000000, 50, false⟩ rfl (by decide) (by decide) (by decide)
        (List.range' 51 149) hz2,
      hs200,
      foldl_otsuStep_broken bimodalImage.data 1000 125000
        ⟨25000, 1000, 5625000000, 50, true⟩ rfl]
  rw [calculateOtsuThreshold.eq_def, h_fold]

/-- C2 counterexample: on the bimodal image the returned threshold is exactly 50,
the lower mode, so it is not strictly between 50 and 200. -/
theorem otsu_bimodal_not_strictly_between :
    ¬ (50 < calculateOtsuThreshold bimodalImage ∧ calculateOtsuThreshold bimodalImage < 200) := by
  rw [calculateOtsuThreshold_bimodal]
  omega

/-- C2 amended: on the bimodal image calculateOtsuThreshold returns exactly 50,
which satisfies 50 ≤ t < 200; binarization with v > t still separates the two
modes. -/
theorem otsu_bimodal_threshold :
    calculateOtsuThreshold bimodalImage = 50 ∧
    50 ≤ calculateOtsuThreshold bimodalImage ∧ calculateOtsuThreshold bimodalImage < 200 := by
  rw [calculateOtsuThreshold_bimodal]
  omega

end Pipeline

end MnistApp
